import Mathlib

/-!
Formal model of the reconciliation core of ytplaylist
(src/ytplaylist/download.py), with theorems settling the specification
claims about it.  Python values are embedded as follows: strings as
`String`, `timedelta` durations as their total number of seconds (`Nat`,
durations are non-negative), `frozenset` of pairs and `dict` as lists of
pairs, file-system paths as lists of path components, fallible code as
`Except`/`Option`.  The runtime string hash used by `VideoInfo.__hash__`
is an external parameter `h : String → Int` (CPython only guarantees that
equal strings have equal hashes).
-/

/-- Video metadata record (`VideoInfo` dataclass, download.py 132-208).
`durationSecs` models the `timedelta` duration by its total number of
seconds; Python's `timedelta.seconds` attribute, the one actually read by
`export_db` and `m3u_create`, is the seconds-within-day component,
i.e. `durationSecs % 86400`.  The `frozenset` of (locale, title) pairs is
modelled as a list of pairs. -/
structure VideoInfo where
  vid : String
  durationSecs : Nat
  titleDefault : String
  localeTitle : List (String × String)
  missing : Bool
deriving DecidableEq, Repr

/-- `sanitize_name` (download.py 127-129): replace each '/' of a file name
by the visually similar division-slash character U+2215. -/
def sanitize_name (name : String) : String :=
  String.mk (name.data.map (fun c => if c = '/' then '∕' else c))

/-- Is the first character list an initial run of the second? -/
def listPre : List Char → List Char → Bool
  | [], _ => true
  | _ :: _, [] => false
  | a :: as, b :: bs => a == b && listPre as bs

/-- Python `str.removeprefix`: drop `p` from the front of `s` when it is
there, else return `s` unchanged. -/
def dropPre (s p : String) : String :=
  if listPre p.data s.data then String.mk (s.data.drop p.data.length) else s

/-- `VideoInfo.title` (download.py 149-155): localized title lookup,
falling back to the default title when the exact locale code is not
registered. -/
def VideoInfo.title (v : VideoInfo) (locale : Option String) : String :=
  match locale with
  | none => v.titleDefault
  | some loc =>
    match v.localeTitle.find? (fun p => p.1 == loc) with
    | some p => p.2
    | none => v.titleDefault

/-- Shape of one JSON database element (`LocalDBElement`, download.py
31-36). -/
structure LocalDBElement where
  id : String
  duration : Nat
  title : String
  locale : List (String × String)
deriving DecidableEq, Repr

/-- Python `dict(pairs)` built from a sequence of key-value pairs: the
position of the first insertion of a key is kept, the last value for that
key wins. -/
def dictOfPairs (l : List (String × String)) : List (String × String) :=
  l.foldl (fun acc p =>
    if acc.any (fun q => q.1 == p.1) then
      acc.map (fun q => if q.1 == p.1 then (q.1, p.2) else q)
    else acc ++ [p]) []

/-- `VideoInfo.export_db` (download.py 157-165): the exported `duration`
field is `self.duration.seconds`, the seconds-within-day component of the
timedelta, i.e. total seconds mod 86400. -/
def VideoInfo.export_db (v : VideoInfo) : LocalDBElement :=
  { id := v.vid
    duration := v.durationSecs % 86400
    title := v.titleDefault
    locale := dictOfPairs v.localeTitle }

/-- `VideoInfo.from_local` (download.py 198-203):
`timedelta(seconds=item['duration'])` has `item.duration` total seconds,
and the `missing` flag is set to `False`. -/
def VideoInfo.from_local (item : LocalDBElement) : VideoInfo :=
  ⟨item.id, item.duration, item.title, item.locale, false⟩

/-- `VideoInfo.from_missing` (download.py 205-208): placeholder record for
an unresolved identifier. -/
def VideoInfo.from_missing (vid : String) : VideoInfo :=
  ⟨vid, 0, vid, [], true⟩

/-- `VideoInfo.__hash__` (download.py 141-142): the hash of a record is
the runtime hash `h` of its id string. -/
def pyHashV (h : String → Int) (v : VideoInfo) : Int := h v.vid

/-- `VideoInfo.__eq__` (download.py 144-147): two records compare equal
iff their hashes (the hashes of their ids) are equal. -/
def pyEq (h : String → Int) (a b : VideoInfo) : Bool :=
  pyHashV h a == pyHashV h b

/-- Identifier list merger (download.py 452-456):
`playlist_vids.extend(vid for vid in remote if vid not in playlist_vids)`.
`list.extend` appends each produced element before the generator tests the
next one, so the membership test always sees the list grown so far. -/
def merge (E R : List String) : List String :=
  R.foldl (fun acc vid => if vid ∈ acc then acc else acc ++ [vid]) E

/-- The elements `merge` appends after the existing list: first
occurrences of remote identifiers not already present. -/
def newOnes (E : List String) : List String → List String
  | [] => []
  | v :: R => if v ∈ E then newOnes E R else v :: newOnes (E ++ [v]) R

theorem merge_eq_append (R E : List String) : merge E R = E ++ newOnes E R := by
  induction R generalizing E with
  | nil => simp [merge, newOnes]
  | cons v R ih =>
    by_cases hv : v ∈ E
    · simpa [merge, newOnes, hv] using ih E
    · have := ih (E ++ [v])
      simp only [merge, List.foldl_cons, if_neg hv, newOnes, if_neg hv] at *
      rw [this, List.append_assoc]
      rfl

theorem newOnes_subset {E R : List String} {x : String}
    (hx : x ∈ newOnes E R) : x ∈ R ∧ x ∉ E := by
  induction R generalizing E with
  | nil => simp [newOnes] at hx
  | cons v R ih =>
    by_cases hv : v ∈ E
    · simp only [newOnes, if_pos hv] at hx
      rcases ih hx with ⟨h1, h2⟩
      exact ⟨List.mem_cons_of_mem _ h1, h2⟩
    · simp only [newOnes, if_neg hv] at hx
      rcases List.mem_cons.1 hx with h | h
      · exact ⟨h ▸ List.mem_cons_self _ _, h ▸ hv⟩
      · rcases ih h with ⟨h1, h2⟩
        refine ⟨List.mem_cons_of_mem _ h1, fun hc => h2 ?_⟩
        exact List.mem_append.2 (Or.inl hc)

theorem newOnes_nodup (E R : List String) : (newOnes E R).Nodup := by
  induction R generalizing E with
  | nil => simp [newOnes]
  | cons v R ih =>
    by_cases hv : v ∈ E
    · simpa [newOnes, if_pos hv] using ih E
    · simp only [newOnes, if_neg hv, List.nodup_cons]
      refine ⟨fun hc => ?_, ih (E ++ [v])⟩
      have := (newOnes_subset hc).2
      exact this (List.mem_append.2 (Or.inr (List.mem_singleton.2 rfl)))

theorem mem_newOnes_of_mem {E R : List String} {x : String}
    (hR : x ∈ R) (hE : x ∉ E) : x ∈ newOnes E R := by
  induction R generalizing E with
  | nil => simp at hR
  | cons v R ih =>
    by_cases hv : v ∈ E
    · have hxv : x ≠ v := fun hc => hE (hc ▸ hv)
      have hR' : x ∈ R := by
        rcases List.mem_cons.1 hR with h | h
        · exact absurd h hxv
        · exact h
      simpa [newOnes, if_pos hv] using ih hR' hE
    · simp only [newOnes, if_neg hv]
      rcases List.mem_cons.1 hR with h | h
      · exact h ▸ List.mem_cons_self _ _
      · by_cases hxv : x = v
        · exact hxv ▸ List.mem_cons_self _ _
        · refine List.mem_cons_of_mem _ (ih h ?_)
          intro hc
          rcases List.mem_append.1 hc with hc | hc
          · exact hE hc
          · exact hxv (List.mem_singleton.1 hc)

theorem newOnes_firstSeen (E R : List String) :
    (newOnes E R).Pairwise (fun a b => R.indexOf a < R.indexOf b) := by
  induction R generalizing E with
  | nil => simp [newOnes]
  | cons v R ih =>
    have step : ∀ E', v ∈ E' → (newOnes E' R).Pairwise
        (fun a b => (v :: R).indexOf a < (v :: R).indexOf b) := by
      intro E' hv'
      refine List.Pairwise.imp_of_mem ?_ (ih E')
      intro a b ha hb hab
      have hav : v ≠ a := fun hc => (newOnes_subset ha).2 (hc ▸ hv')
      have hbv : v ≠ b := fun hc => (newOnes_subset hb).2 (hc ▸ hv')
      rw [List.indexOf_cons_ne _ hav, List.indexOf_cons_ne _ hbv]
      exact Nat.succ_lt_succ hab
    by_cases hv : v ∈ E
    · simpa [newOnes, if_pos hv] using step E hv
    · simp only [newOnes, if_neg hv]
      refine List.Pairwise.cons ?_
        (step (E ++ [v]) (List.mem_append.2 (Or.inr (List.mem_singleton.2 rfl))))
      intro b hb
      have hbv : b ∉ E ++ [v] := (newOnes_subset hb).2
      have hne : v ≠ b := fun hc =>
        hbv (List.mem_append.2 (Or.inr (List.mem_singleton.2 hc.symm)))
      rw [List.indexOf_cons_self, List.indexOf_cons_ne _ hne]
      exact Nat.zero_lt_succ _

/-- C2 counterexample: with an existing list that already contains a
duplicate, the merged list keeps it, so the merged list does not contain
each identifier at most once even though it starts with E verbatim. -/
theorem c2_counterexample :
    merge ["a", "a"] [] = ["a", "a"] ∧ ¬ (["a", "a"] : List String).Nodup := by
  constructor
  · rfl
  · decide

/-- C2 amended: provided the existing identifier list `E` has no
duplicates, the merged list starts with `E` verbatim, has no duplicates,
contains exactly the identifiers of `E` and `R`, and the identifiers
appended after `E` are exactly those of `R` not in `E`, each occurring
once, ordered by the position of their first occurrence in `R`. -/
theorem c2_merge_spec (E R : List String) (hE : E.Nodup) :
    (merge E R).take E.length = E ∧
    (merge E R).Nodup ∧
    (∀ x, x ∈ merge E R ↔ x ∈ E ∨ x ∈ R) ∧
    ((merge E R).drop E.length = newOnes E R ∧
      (∀ x, x ∈ newOnes E R ↔ x ∈ R ∧ x ∉ E) ∧
      (newOnes E R).Nodup ∧
      (newOnes E R).Pairwise (fun a b => R.indexOf a < R.indexOf b)) := by
  have hm := merge_eq_append R E
  refine ⟨?_, ?_, ?_, ?_, ?_, newOnes_nodup E R, newOnes_firstSeen E R⟩
  · rw [hm, List.take_left]
  · rw [hm, List.nodup_append]
    refine ⟨hE, newOnes_nodup E R, ?_⟩
    intro x hx hx'
    exact (newOnes_subset hx').2 hx
  · intro x
    rw [hm, List.mem_append]
    constructor
    · rintro (h | h)
      · exact Or.inl h
      · exact Or.inr (newOnes_subset h).1
    · rintro (h | h)
      · exact Or.inl h
      · by_cases hxE : x ∈ E
        · exact Or.inl hxE
        · exact Or.inr (mem_newOnes_of_mem h hxE)
  · rw [hm, List.drop_left]
  · intro x
    exact ⟨newOnes_subset, fun ⟨h1, h2⟩ => mem_newOnes_of_mem h1 h2⟩

/-- C2 witness: the amended statement at a concrete instance. -/
theorem c2_merge_spec_witness :
    (["e1", "e2"] : List String).Nodup ∧
    ((merge ["e1", "e2"] ["e2", "n1", "n1", "e1", "n2"]).take 2 = ["e1", "e2"] ∧
      (merge ["e1", "e2"] ["e2", "n1", "n1", "e1", "n2"]).Nodup ∧
      (∀ x, x ∈ merge ["e1", "e2"] ["e2", "n1", "n1", "e1", "n2"] ↔
        x ∈ (["e1", "e2"] : List String) ∨ x ∈ (["e2", "n1", "n1", "e1", "n2"] : List String)) ∧
      ((merge ["e1", "e2"] ["e2", "n1", "n1", "e1", "n2"]).drop 2 =
          newOnes ["e1", "e2"] ["e2", "n1", "n1", "e1", "n2"] ∧
        (∀ x, x ∈ newOnes ["e1", "e2"] ["e2", "n1", "n1", "e1", "n2"] ↔
          x ∈ (["e2", "n1", "n1", "e1", "n2"] : List String) ∧ x ∉ (["e1", "e2"] : List String)) ∧
        (newOnes ["e1", "e2"] ["e2", "n1", "n1", "e1", "n2"]).Nodup ∧
        (newOnes ["e1", "e2"] ["e2", "n1", "n1", "e1", "n2"]).Pairwise
          (fun a b => (["e2", "n1", "n1", "e1", "n2"] : List String).indexOf a <
            (["e2", "n1", "n1", "e1", "n2"] : List String).indexOf b))) :=
  ⟨by decide, c2_merge_spec ["e1", "e2"] ["e2", "n1", "n1", "e1", "n2"] (by decide)⟩

theorem data_append (s t : String) : (s ++ t).data = s.data ++ t.data := by
  cases s
  cases t
  rfl

/-- C3: the database round trip is not exact: `export_db` stores
`timedelta.seconds`, the seconds-within-day component, so a record whose
duration is one day plus one second (86401 s) round-trips to a duration
of 1 s.  All other fields, and the cleared `missing` flag, survive. -/
theorem c3_roundtrip_loses_days :
    VideoInfo.from_local (VideoInfo.export_db
        ⟨"videoid1", 86401, "T", [("en", "T en")], false⟩) =
      ⟨"videoid1", 1, "T", [("en", "T en")], false⟩ ∧
    (VideoInfo.from_local (VideoInfo.export_db
        ⟨"videoid1", 86401, "T", [("en", "T en")], false⟩)).durationSecs ≠ 86401 := by
  exact ⟨rfl, by decide⟩

/-- C4 counterexample: `__eq__` compares the runtime hashes of the ids,
not the ids themselves; under a hash function on which the two ids
collide (here the degenerate constant hash, a legal hash implementation),
two records with distinct ids compare equal, refuting "two records with
distinct ids are never equal". -/
theorem c4_counterexample :
    pyEq (fun _ => 0) ⟨"aaaaaaaa", 1, "A", [], false⟩
        ⟨"bbbbbbbb", 2, "B", [], true⟩ = true ∧
    ("aaaaaaaa" : String) ≠ "bbbbbbbb" := by
  exact ⟨rfl, by decide⟩

/-- C4 amended: equality and hashing depend on the id alone (never on
duration, titles, locale titles or the missing flag), and whenever the
runtime hash does not collide on the two ids in play, two records are
equal — and hash equal — exactly when their ids are equal. -/
theorem c4_eq_iff_id (h : String → Int) (a b : VideoInfo)
    (hcol : h a.vid = h b.vid → a.vid = b.vid) :
    (pyEq h a b = true ↔ a.vid = b.vid) ∧
    (pyHashV h a = pyHashV h b ↔ a.vid = b.vid) := by
  have hiff : pyHashV h a = pyHashV h b ↔ a.vid = b.vid := by
    constructor
    · exact fun hh => hcol hh
    · intro hv
      simp [pyHashV, hv]
  constructor
  · simp only [pyEq, beq_iff_eq]
    exact hiff
  · exact hiff

/-- C4 witness: concrete records whose ids do not collide under a
concrete hash; they differ in every non-id field yet the equivalence
holds. -/
theorem c4_eq_iff_id_witness :
    (((fun s : String => Int.ofNat s.length) "a" =
        (fun s : String => Int.ofNat s.length) "bc" → ("a" : String) = "bc") ∧
      ((pyEq (fun s : String => Int.ofNat s.length)
          ⟨"a", 5, "x", [("en", "u")], false⟩ ⟨"bc", 6, "y", [], true⟩ = true ↔
        ("a" : String) = "bc") ∧
      (pyHashV (fun s : String => Int.ofNat s.length) ⟨"a", 5, "x", [("en", "u")], false⟩ =
          pyHashV (fun s : String => Int.ofNat s.length) ⟨"bc", 6, "y", [], true⟩ ↔
        ("a" : String) = "bc"))) :=
  ⟨by decide,
   c4_eq_iff_id (fun s : String => Int.ofNat s.length)
     ⟨"a", 5, "x", [("en", "u")], false⟩ ⟨"bc", 6, "y", [], true⟩ (by decide)⟩

/-- C9: sanitization removes every path separator, so a sanitized title —
and the symlink name built from it by appending a dot and the raw file's
extension — never contains '/', hence never names more than one path
segment. -/
theorem c9_sanitize_no_separator (name ext : String) (hext : '/' ∉ ext.data) :
    '/' ∉ (sanitize_name name).data ∧
    '/' ∉ (sanitize_name name ++ "." ++ ext).data := by
  have h1 : '/' ∉ (sanitize_name name).data := by
    intro hmem
    have : '/' ∈ name.data.map (fun c => if c = '/' then '∕' else c) := hmem
    rcases List.mem_map.1 this with ⟨c, _, hc⟩
    by_cases hcs : c = '/'
    · rw [if_pos hcs] at hc
      exact absurd hc (by decide)
    · rw [if_neg hcs] at hc
      exact hcs hc
  refine ⟨h1, ?_⟩
  intro hmem
  rw [data_append, data_append] at hmem
  rcases List.mem_append.1 hmem with hmem | hmem
  · rcases List.mem_append.1 hmem with hmem | hmem
    · exact h1 hmem
    · exact absurd hmem (by decide)
  · exact hext hmem

/-- C9 witness: a title containing '/' at a concrete input. -/
theorem c9_sanitize_no_separator_witness :
    '/' ∉ ("mp4" : String).data ∧
    ('/' ∉ (sanitize_name "a/b").data ∧
      '/' ∉ (sanitize_name "a/b" ++ "." ++ "mp4").data) :=
  ⟨by decide, c9_sanitize_no_separator "a/b" "mp4" (by decide)⟩

/-- File-system paths are modelled as lists of path components.  `AbsPath`
is an absolute normalized path: its components below the root. -/
abbrev AbsPath := List String

/-- `os.path.normpath`-style resolution of a component sequence against a
base path: a '..' component pops the last component, any other component
descends (the paths handled here carry no '.'). -/
def normSteps (base : AbsPath) (t : List String) : AbsPath :=
  t.foldl (fun acc c => if c = ".." then acc.dropLast else acc ++ [c]) base

/-- Length of the longest common component run of two paths. -/
def commonPrefixLen : List String → List String → Nat
  | a :: as, b :: bs => if a = b then commonPrefixLen as bs + 1 else 0
  | _, _ => 0

/-- `os.path.relpath(target, start)` on absolute normalized component
paths: climb out of the non-shared tail of `start`, then descend into the
non-shared tail of `target`. -/
def relpathC (target start : AbsPath) : List String :=
  List.replicate (start.length - commonPrefixLen target start) ".." ++
    target.drop (commonPrefixLen target start)

theorem normSteps_append (base : AbsPath) (t1 t2 : List String) :
    normSteps base (t1 ++ t2) = normSteps (normSteps base t1) t2 := by
  simp [normSteps, List.foldl_append]

theorem normSteps_no_dotdot (base : AbsPath) (t : List String) (h : ".." ∉ t) :
    normSteps base t = base ++ t := by
  induction t generalizing base with
  | nil => simp [normSteps]
  | cons c t ih =>
    have hc : c ≠ ".." := fun hcc => h (hcc ▸ List.mem_cons_self _ _)
    have ht : ".." ∉ t := fun hm => h (List.mem_cons_of_mem _ hm)
    show List.foldl _ (if c = ".." then _ else base ++ [c]) t = _
    rw [if_neg hc]
    have := ih (base ++ [c]) ht
    simpa [List.append_assoc] using this

theorem normSteps_pops (m : Nat) :
    ∀ base : AbsPath, normSteps base (List.replicate m "..") = base.take (base.length - m) := by
  induction m with
  | zero =>
    intro base
    simp [normSteps]
  | succ m ih =>
    intro base
    have hstep : normSteps base (List.replicate (m + 1) "..") =
        normSteps base.dropLast (List.replicate m "..") := by
      show List.foldl _ (if (".." : String) = ".." then base.dropLast else _) _ = _
      rw [if_pos rfl]
      rfl
    rw [hstep, ih base.dropLast, List.dropLast_eq_take, List.take_take,
        List.length_take]
    congr 1
    omega

theorem commonPrefixLen_le_left :
    ∀ a b : List String, commonPrefixLen a b ≤ a.length := by
  intro a
  induction a with
  | nil => intro b; cases b <;> simp [commonPrefixLen]
  | cons x as ih =>
    intro b
    cases b with
    | nil => simp [commonPrefixLen]
    | cons y bs =>
      by_cases hxy : x = y
      · simpa [commonPrefixLen, hxy] using Nat.succ_le_succ (ih bs)
      · simp [commonPrefixLen, hxy]

theorem commonPrefixLen_le_right :
    ∀ a b : List String, commonPrefixLen a b ≤ b.length := by
  intro a
  induction a with
  | nil => intro b; cases b <;> simp [commonPrefixLen]
  | cons x as ih =>
    intro b
    cases b with
    | nil => simp [commonPrefixLen]
    | cons y bs =>
      by_cases hxy : x = y
      · simpa [commonPrefixLen, hxy] using Nat.succ_le_succ (ih bs)
      · simp [commonPrefixLen, hxy]

theorem take_commonPrefixLen :
    ∀ a b : List String, a.take (commonPrefixLen a b) = b.take (commonPrefixLen a b) := by
  intro a
  induction a with
  | nil => intro b; cases b <;> simp [commonPrefixLen]
  | cons x as ih =>
    intro b
    cases b with
    | nil => simp [commonPrefixLen]
    | cons y bs =>
      by_cases hxy : x = y
      · subst hxy
        have h1 : commonPrefixLen (x :: as) (x :: bs) = commonPrefixLen as bs + 1 := by
          simp [commonPrefixLen]
        rw [h1, List.take_succ_cons, List.take_succ_cons, ih bs]
      · simp [commonPrefixLen, hxy]

/-- Resolving the relative target `os.symlink` stores against the link's
directory recovers the raw path: `normpath(join(start, relpath(target,
start))) = target` for normalized absolute paths. -/
theorem normSteps_relpathC (target start : AbsPath) (ht : ".." ∉ target) :
    normSteps start (relpathC target start) = target := by
  have hks : commonPrefixLen target start ≤ start.length :=
    commonPrefixLen_le_right target start
  have hdrop : ".." ∉ target.drop (commonPrefixLen target start) :=
    fun hm => ht ((List.drop_sublist _ _).subset hm)
  rw [relpathC, normSteps_append, normSteps_pops,
      normSteps_no_dotdot _ _ hdrop, Nat.sub_sub_self hks,
      (take_commonPrefixLen target start).symm, List.take_append_drop]

/-- UTF-8 encoding of one character, as byte values. -/
def utf8Enc (c : Char) : List Nat :=
  let n := c.toNat
  if n < 0x80 then [n]
  else if n < 0x800 then [0xC0 + n / 0x40, 0x80 + n % 0x40]
  else if n < 0x10000 then
    [0xE0 + n / 0x1000, 0x80 + n / 0x40 % 0x40, 0x80 + n % 0x40]
  else
    [0xF0 + n / 0x40000, 0x80 + n / 0x1000 % 0x40, 0x80 + n / 0x40 % 0x40,
     0x80 + n % 0x40]

/-- The UTF-8 bytes of a string. -/
def strBytes (s : String) : List Nat := s.data.flatMap utf8Enc

def hexDigitChar (n : Nat) : Char :=
  if n < 10 then Char.ofNat (48 + n) else Char.ofNat (55 + n)

/-- Bytes `urllib.parse.quote` never escapes, for the default safe set
"/": ASCII letters, digits, '_', '.', '-', '~' and '/'. -/
def quoteSafe (b : Nat) : Bool :=
  (0x41 ≤ b && b ≤ 0x5A) || (0x61 ≤ b && b ≤ 0x7A) || (0x30 ≤ b && b ≤ 0x39) ||
  b == 0x5F || b == 0x2E || b == 0x2D || b == 0x7E || b == 0x2F

/-- `urllib.parse.quote(s)` (default safe='/'): percent-escape every
unsafe UTF-8 byte as %XX with uppercase hex digits. -/
def pyQuote (s : String) : String :=
  String.mk ((strBytes s).foldr (fun b acc =>
    (if quoteSafe b then [Char.ofNat b]
     else ['%', hexDigitChar (b / 16), hexDigitChar (b % 16)]) ++ acc) [])

def hexVal (c : Char) : Option Nat :=
  if '0' ≤ c ∧ c ≤ '9' then some (c.toNat - 48)
  else if 'A' ≤ c ∧ c ≤ 'F' then some (c.toNat - 55)
  else if 'a' ≤ c ∧ c ≤ 'f' then some (c.toNat - 87)
  else none

/-- Percent-decoding at the byte level: a '%' followed by two hex digits
becomes the encoded byte, an invalid escape is kept literally (as
`urllib.parse.unquote` does). -/
def pctDecode : List Nat → List Nat
  | [] => []
  | b :: rest =>
    if b = 0x25 then
      match hr : rest with
      | a :: c :: rest' =>
        match hexVal (Char.ofNat a), hexVal (Char.ofNat c) with
        | some x, some y => (16 * x + y) :: pctDecode rest'
        | _, _ => b :: pctDecode rest
      | _ => b :: pctDecode rest
    else b :: pctDecode rest
termination_by l => l.length
decreasing_by all_goals (simp_all <;> omega)

def isContByte (b : Nat) : Bool := 0x80 ≤ b && b < 0xC0

/-- UTF-8 decoding with U+FFFD replacement for invalid sequences
(Python's errors='replace' policy of `unquote`). -/
def utf8DecR : List Nat → List Char
  | [] => []
  | b :: rest =>
    if b < 0x80 then Char.ofNat b :: utf8DecR rest
    else if b < 0xC0 then '�' :: utf8DecR rest
    else if b < 0xE0 then
      match h2 : rest with
      | c1 :: rest' =>
        if isContByte c1 then
          Char.ofNat ((b - 0xC0) * 0x40 + (c1 - 0x80)) :: utf8DecR rest'
        else '�' :: utf8DecR rest
      | [] => ['�']
    else if b < 0xF0 then
      match h3 : rest with
      | c1 :: c2 :: rest' =>
        if isContByte c1 && isContByte c2 then
          Char.ofNat ((b - 0xE0) * 0x1000 + (c1 - 0x80) * 0x40 + (c2 - 0x80)) ::
            utf8DecR rest'
        else '�' :: utf8DecR rest
      | _ => ['�']
    else if b < 0xF8 then
      match h4 : rest with
      | c1 :: c2 :: c3 :: rest' =>
        if isContByte c1 && isContByte c2 && isContByte c3 then
          Char.ofNat ((b - 0xF0) * 0x40000 + (c1 - 0x80) * 0x1000 +
              (c2 - 0x80) * 0x40 + (c3 - 0x80)) :: utf8DecR rest'
        else '�' :: utf8DecR rest
      | _ => ['�']
    else '�' :: utf8DecR rest
termination_by l => l.length
decreasing_by all_goals (simp_all <;> omega)

/-- `urllib.parse.unquote(s)`: percent-decode at the UTF-8 byte level,
then decode the bytes back to text. -/
def pyUnquote (s : String) : String :=
  String.mk (utf8DecR (pctDecode (strBytes s)))

/-- `os.path.basename` of a POSIX path string: the part after the last
'/'. -/
def basenameStr (s : String) : String := (s.splitOn "/").getLastD s

/-- `str.split('.')[0]`. -/
def headToken (s : String) : String := (s.splitOn ".").headD s

/-- `m3u_get_ids` (download.py 211-222): for each playlist line not
starting with '#', yield `basename(line).split('.')[0]`, percent-decoded
when `url` is truthy.  (Python raises IndexError on an empty line; lines
produced by file iteration are never empty, so the model just reads the
first character optionally.) -/
def m3u_get_ids (lines : List String) (url : Bool) : List String :=
  (lines.filter (fun l => l.data.head? != some '#')).map (fun l =>
    let vid := headToken (basenameStr l)
    if url then pyUnquote vid else vid)

/-- Python truthiness of a string: non-empty means true. -/
def truthy (s : String) : Bool := s != ""

/-- The call site in `main` (download.py 439-445):
`m3u_get_ids(playlist_stream, args.playlist_fmt)` passes the playlist
format option string itself as the `url` flag. -/
def mainReadPlaylist (fmt : String) (lines : List String) : List String :=
  m3u_get_ids lines (truthy fmt)

/-- C10: both values of the playlist-format option ('normal' and 'vlc')
are non-empty, hence truthy, so the identifiers main extracts from an
existing playlist are always percent-decoded. -/
theorem c10_always_unquoted (fmt : String) (lines : List String)
    (hfmt : fmt = "normal" ∨ fmt = "vlc") :
    mainReadPlaylist fmt lines =
      (lines.filter (fun l => l.data.head? != some '#')).map
        (fun l => pyUnquote (headToken (basenameStr l))) := by
  have ht : truthy fmt = true := by
    rcases hfmt with h | h <;> subst h <;> rfl
  simp [mainReadPlaylist, m3u_get_ids, ht]

/-- C10 witness: with the 'normal' format (the one whose name suggests no
URL decoding) a percent-encoded id is still decoded. -/
theorem c10_always_unquoted_witness :
    (("normal" : String) = "normal" ∨ ("normal" : String) = "vlc") ∧
    mainReadPlaylist "normal" ["#EXTM3U", "d/a%20b.mp4"] =
      ((["#EXTM3U", "d/a%20b.mp4"] : List String).filter
        (fun l => l.data.head? != some '#')).map
        (fun l => pyUnquote (headToken (basenameStr l))) :=
  ⟨Or.inl rfl, c10_always_unquoted "normal" ["#EXTM3U", "d/a%20b.mp4"] (Or.inl rfl)⟩

/-- A path as handed around by `main`/`m3u_create`: possibly relative,
component form. -/
structure PathC where
  isAbs : Bool
  comps : List String
deriving DecidableEq, Repr

/-- `os.path.abspath`: join against the working directory when relative,
then normalize. -/
def abspathC (cwd : AbsPath) (p : PathC) : AbsPath :=
  if p.isAbs then normSteps [] p.comps else normSteps cwd p.comps

/-- Render an absolute component path as a POSIX path string. -/
def renderAbs (p : AbsPath) : String := "/" ++ String.intercalate "/" p

/-- Render `os.path.relpath`'s component result as a string ('.' for the
empty relative path, as Python does). -/
def renderRel (t : List String) : String :=
  if t = [] then "." else String.intercalate "/" t

/-- The `#EXTINF` line of `m3u_create` (download.py 248):
`f'#EXTINF:{vidinfo.duration.seconds},{vidinfo.title(locale)}'`;
`timedelta.seconds` is total seconds mod 86400. -/
def extinfLine (v : VideoInfo) (locale : Option String) : String :=
  "#EXTINF:" ++ toString (v.durationSecs % 86400) ++ "," ++ v.title locale

/-- The path line of `m3u_create` (download.py 241-246): absolute when no
base path is given, relative to the base path otherwise, percent-escaped
when `url` is set. -/
def pathLine (url : Bool) (basepath : Option PathC) (cwd : AbsPath) (p : PathC) : String :=
  let s := match basepath with
    | none => renderAbs (abspathC cwd p)
    | some bp => renderRel (relpathC (abspathC cwd p) (abspathC cwd bp))
  if url then pyQuote s else s

/-- `m3u_create` (download.py 225-251), as the list of lines written: the
'#EXTM3U' header, then per entry with a path two lines; entries with no
path are skipped (with a logged error). -/
def m3u_create (items : List (VideoInfo × Option PathC)) (url : Bool)
    (basepath : Option PathC) (locale : Option String) (cwd : AbsPath) : List String :=
  "#EXTM3U" :: items.foldl (fun acc p =>
    match p.2 with
    | none => acc
    | some vp => acc ++ [extinfLine p.1 locale, pathLine url basepath cwd vp]) []

/-- Spec-side description of the playlist body: two lines per entry with a
path, none for the others, in entry order. -/
def m3uLinesSpec (items : List (VideoInfo × Option PathC)) (url : Bool)
    (basepath : Option PathC) (locale : Option String) (cwd : AbsPath) : List String :=
  items.foldr (fun p acc =>
    match p.2 with
    | none => acc
    | some vp => extinfLine p.1 locale :: pathLine url basepath cwd vp :: acc) []

theorem m3u_create_body (items : List (VideoInfo × Option PathC)) (url : Bool)
    (basepath : Option PathC) (locale : Option String) (cwd : AbsPath) :
    ∀ init : List String,
      items.foldl (fun acc p =>
        match p.2 with
        | none => acc
        | some vp => acc ++ [extinfLine p.1 locale, pathLine url basepath cwd vp]) init =
        init ++ m3uLinesSpec items url basepath locale cwd := by
  induction items with
  | nil => intro init; simp [m3uLinesSpec]
  | cons p items ih =>
    intro init
    match hp : p.2 with
    | none =>
      simp only [List.foldl_cons, m3uLinesSpec, List.foldr_cons, hp]
      exact ih init
    | some vp =>
      simp only [List.foldl_cons, m3uLinesSpec, List.foldr_cons, hp]
      rw [ih (init ++ [extinfLine p.1 locale, pathLine url basepath cwd vp])]
      simp [m3uLinesSpec, List.append_assoc]

/-- C5 counterexample: the informational line does not carry the duration
in whole seconds — for a 86401-second (one day and one second) entry the
emitted line is '#EXTINF:1,T' (`timedelta.seconds` is seconds within the
day), not '#EXTINF:86401,T'. -/
theorem c5_counterexample :
    m3u_create [(⟨"abcdefgh", 86401, "T", [], false⟩, some ⟨true, ["a", "b", "c.mp4"]⟩)]
        false (some ⟨true, ["a"]⟩) none [] =
      ["#EXTM3U", "#EXTINF:1,T", "b/c.mp4"] ∧
    ("#EXTINF:1,T" : String) ≠ "#EXTINF:86401,T" := by
  exact ⟨rfl, by decide⟩

/-- C5 amended: `m3u_create` writes the '#EXTM3U' header and then, for
each entry with a path, exactly the two lines
'#EXTINF:(total seconds mod 86400),(localized title)' and a path line —
absolute when no base path is given, relative to the base path otherwise,
percent-escaped when URL encoding is requested; entries without a path
contribute nothing.  The claim's concrete example (125 s, title Foo,
path /a/b/Foo.mp4, base /a) yields '#EXTINF:125,Foo' and 'b/Foo.mp4'. -/
theorem c5_m3u_create_spec :
    (∀ (items : List (VideoInfo × Option PathC)) (url : Bool)
        (basepath : Option PathC) (locale : Option String) (cwd : AbsPath),
      m3u_create items url basepath locale cwd =
        "#EXTM3U" :: m3uLinesSpec items url basepath locale cwd) ∧
    (∀ (cwd : AbsPath) (p : PathC),
      (pathLine false none cwd p).data.head? = some '/') ∧
    (∀ (basepath : Option PathC) (cwd : AbsPath) (p : PathC),
      pathLine true basepath cwd p = pyQuote (pathLine false basepath cwd p)) ∧
    m3u_create [(⟨"abcdefgh", 125, "Foo", [], false⟩, some ⟨true, ["a", "b", "Foo.mp4"]⟩)]
        false (some ⟨true, ["a"]⟩) none [] =
      ["#EXTM3U", "#EXTINF:125,Foo", "b/Foo.mp4"] := by
  refine ⟨?_, ?_, ?_, rfl⟩
  · intro items url basepath locale cwd
    exact congrArg ("#EXTM3U" :: ·) (m3u_create_body items url basepath locale cwd [])
  · intro cwd p
    show (("/" ++ String.intercalate "/" (abspathC cwd p)).data).head? = some '/'
    rw [data_append]
    rfl
  · intro basepath cwd p
    rfl

/-- `vidinfo in local_db` and `local_db[local_db.index(vidinfo)]`
(download.py 464-465): list membership and index use `VideoInfo.__eq__`,
i.e. hash equality of the ids; the first matching record wins. -/
def dbLookup (h : String → Int) (db : List VideoInfo) (x : VideoInfo) :
    Option VideoInfo :=
  db.find? (fun k => pyEq h k x)

/-- Log events of the metadata-resolution loop. -/
inductive RLog
  | foundInDb (vid : String)
  | notInDb (vid : String)
  | gotYoutube (vid : String)
  | notOnYoutube (vid : String)
  | errNoInfo (vid : String)
deriving DecidableEq, Repr

/-- One iteration of the metadata-resolution loop (download.py 462-478),
parametrized by the remote lookup `fetch` (`VideoInfo.from_youtube`;
`none` models the raised-and-caught per-item exception). -/
def resolveOne (h : String → Int) (fetch : String → Option VideoInfo)
    (db : List VideoInfo) (updateAll : Bool) (vid : String) :
    VideoInfo × List RLog :=
  let v0 := VideoInfo.from_missing vid
  let p1 := match dbLookup h db v0 with
    | some k => (k, [RLog.foundInDb vid])
    | none => (v0, [RLog.notInDb vid])
  let p2 := if p1.1.missing || updateAll then
      match fetch vid with
      | some vy => (vy, [RLog.gotYoutube vid])
      | none => (p1.1, [RLog.notOnYoutube vid])
    else (p1.1, [])
  (p2.1, p1.2 ++ p2.2 ++ (if p2.1.missing then [RLog.errNoInfo vid] else []))

/-- `vid_path[vidinfo] = None` (download.py 479): Python dict assignment —
a key equal (by `__eq__`) to an existing one keeps the original key object
and overwrites the value, otherwise the pair is appended. -/
def dictInsertNone (h : String → Int) (acc : List (VideoInfo × Option PathC))
    (v : VideoInfo) : List (VideoInfo × Option PathC) :=
  if acc.any (fun q => pyEq h q.1 v) then
    acc.map (fun q => if pyEq h q.1 v then (q.1, none) else q)
  else acc ++ [(v, none)]

/-- C6: an identifier with no database hit whose remote lookup fails keeps
the missing placeholder as its working record, is mapped to a none path in
the entry mapping, an error is logged, and `m3u_create` writes no lines
for the none-path entry, so it is absent from the emitted playlist. -/
theorem c6_unresolved_entry (h : String → Int) (fetch : String → Option VideoInfo)
    (db : List VideoInfo) (updateAll : Bool) (vid : String)
    (acc : List (VideoInfo × Option PathC))
    (pre post : List (VideoInfo × Option PathC)) (url : Bool)
    (basepath : Option PathC) (locale : Option String) (cwd : AbsPath)
    (hdb : dbLookup h db (VideoInfo.from_missing vid) = none)
    (hfetch : fetch vid = none)
    (hacc : acc.all (fun q => !pyEq h q.1 (VideoInfo.from_missing vid)) = true) :
    (resolveOne h fetch db updateAll vid).1 = VideoInfo.from_missing vid ∧
    (VideoInfo.from_missing vid).missing = true ∧
    RLog.errNoInfo vid ∈ (resolveOne h fetch db updateAll vid).2 ∧
    dictInsertNone h acc (resolveOne h fetch db updateAll vid).1 =
      acc ++ [(VideoInfo.from_missing vid, none)] ∧
    m3u_create (pre ++ (VideoInfo.from_missing vid, none) :: post)
        url basepath locale cwd =
      m3u_create (pre ++ post) url basepath locale cwd := by
  have hdb' : dbLookup h db ⟨vid, 0, vid, [], true⟩ = none := by
    simpa [VideoInfo.from_missing] using hdb
  have hres : resolveOne h fetch db updateAll vid =
      (VideoInfo.from_missing vid,
        [RLog.notInDb vid, RLog.notOnYoutube vid, RLog.errNoInfo vid]) := by
    simp [resolveOne, VideoInfo.from_missing, hdb', hfetch]
  have hany : acc.any (fun q => pyEq h q.1 (VideoInfo.from_missing vid)) = false := by
    rw [List.any_eq_false]
    intro q hq
    have := (List.all_eq_true.1 hacc) q hq
    simpa using this
  refine ⟨by rw [hres], rfl, by rw [hres]; simp, ?_, ?_⟩
  · rw [hres]
    simp [dictInsertNone, hany]
  · have h1 : ∀ items : List (VideoInfo × Option PathC),
        m3u_create items url basepath locale cwd =
          "#EXTM3U" :: m3uLinesSpec items url basepath locale cwd := by
      intro items
      unfold m3u_create
      rw [m3u_create_body]
      rfl
    rw [h1, h1]
    have h2 : m3uLinesSpec (pre ++ (VideoInfo.from_missing vid, none) :: post)
        url basepath locale cwd = m3uLinesSpec (pre ++ post) url basepath locale cwd := by
      simp [m3uLinesSpec, List.foldr_append]
    rw [h2]

/-- C6 witness: a concrete empty database, always-failing remote lookup,
and a concrete surrounding playlist. -/
theorem c6_unresolved_entry_witness :
    (dbLookup (fun s => Int.ofNat s.length) [] (VideoInfo.from_missing "abcdefgh") = none ∧
      (fun _ : String => (none : Option VideoInfo)) "abcdefgh" = none ∧
      ([(⟨"other", 9, "O", [], false⟩, some ⟨true, ["r", "other.mp4"]⟩)] :
          List (VideoInfo × Option PathC)).all
        (fun q => !pyEq (fun s => Int.ofNat s.length) q.1
          (VideoInfo.from_missing "abcdefgh")) = true) ∧
    ((resolveOne (fun s => Int.ofNat s.length) (fun _ => none) [] false "abcdefgh").1 =
        VideoInfo.from_missing "abcdefgh" ∧
      (VideoInfo.from_missing "abcdefgh").missing = true ∧
      RLog.errNoInfo "abcdefgh" ∈
        (resolveOne (fun s => Int.ofNat s.length) (fun _ => none) [] false "abcdefgh").2 ∧
      dictInsertNone (fun s => Int.ofNat s.length)
          [(⟨"other", 9, "O", [], false⟩, some ⟨true, ["r", "other.mp4"]⟩)]
          (resolveOne (fun s => Int.ofNat s.length) (fun _ => none) [] false "abcdefgh").1 =
        [(⟨"other", 9, "O", [], false⟩, some ⟨true, ["r", "other.mp4"]⟩)] ++
          [(VideoInfo.from_missing "abcdefgh", none)] ∧
      m3u_create ([(⟨"other", 9, "O", [], false⟩, some ⟨true, ["r", "other.mp4"]⟩)] ++
          (VideoInfo.from_missing "abcdefgh", none) :: []) false none none [] =
        m3u_create ([(⟨"other", 9, "O", [], false⟩, some ⟨true, ["r", "other.mp4"]⟩)] ++ [])
          false none none []) :=
  ⟨⟨rfl, rfl, by decide⟩,
   c6_unresolved_entry (fun s => Int.ofNat s.length) (fun _ => none) [] false "abcdefgh"
     [(⟨"other", 9, "O", [], false⟩, some ⟨true, ["r", "other.mp4"]⟩)]
     [(⟨"other", 9, "O", [], false⟩, some ⟨true, ["r", "other.mp4"]⟩)] []
     false none none [] rfl rfl (by decide)⟩

/-- Python `list.index` semantics with a predicate: index of the first
matching element. -/
def pyIndex (p : VideoInfo → Bool) : List VideoInfo → Option Nat
  | [] => none
  | k :: rest => if p k then some 0 else (pyIndex p rest).map (· + 1)

theorem pyIndex_none_iff (p : VideoInfo → Bool) :
    ∀ l : List VideoInfo, pyIndex p l = none ↔ ∀ x ∈ l, p x = false := by
  intro l
  induction l with
  | nil => simp [pyIndex]
  | cons k rest ih =>
    by_cases hk : p k
    · simp [pyIndex, hk]
    · simp only [pyIndex, if_neg hk, Option.map_eq_none', ih, List.mem_cons]
      constructor
      · rintro hall x (rfl | hx)
        · simpa using hk
        · exact hall x hx
      · intro hall x hx
        exact hall x (Or.inr hx)

theorem pyIndex_some_get (p : VideoInfo → Bool) :
    ∀ (l : List VideoInfo) (i : Nat), pyIndex p l = some i →
      ∃ hlt : i < l.length, p (l.get ⟨i, hlt⟩) = true := by
  intro l
  induction l with
  | nil => intro i hi; simp [pyIndex] at hi
  | cons k rest ih =>
    intro i hi
    by_cases hk : p k
    · simp only [pyIndex, if_pos hk] at hi
      cases hi
      exact ⟨Nat.succ_pos _, by simpa using hk⟩
    · simp only [pyIndex, if_neg hk, Option.map_eq_some'] at hi
      rcases hi with ⟨j, hj, rfl⟩
      rcases ih j hj with ⟨hlt, hp⟩
      exact ⟨Nat.succ_lt_succ hlt, by simpa using hp⟩

theorem set_same {α : Type} : ∀ (l : List α) (i : Nat) (a : α),
    l.get? i = some a → l.set i a = l := by
  intro l
  induction l with
  | nil =>
    intro i a hi
    cases i <;> simp at hi
  | cons x rest ih =>
    intro i a hi
    cases i with
    | zero =>
      simp only [List.get?] at hi
      cases hi
      simp
    | succ j =>
      simp only [List.get?] at hi
      simp [List.set, ih j a hi]

theorem pyEq_iff_vid (h : String → Int) (ids : List String)
    (hinj : ∀ a ∈ ids, ∀ b ∈ ids, h a = h b → a = b)
    (k v : VideoInfo) (hk : k.vid ∈ ids) (hv : v.vid ∈ ids) :
    (pyEq h k v = true ↔ k.vid = v.vid) := by
  simp only [pyEq, pyHashV, beq_iff_eq]
  exact ⟨fun hh => hinj _ hk _ hv hh, fun hh => by rw [hh]⟩

/-- The body of the database-update loop (download.py 542-548): missing
placeholders are skipped; a record not in the database (by `__eq__`) is
appended; a record already present is overwritten at its position only
when update-all mode is on. -/
def dbStep (h : String → Int) (ua : Bool) (acc : List VideoInfo)
    (v : VideoInfo) : List VideoInfo :=
  if v.missing then acc
  else match pyIndex (fun k => pyEq h k v) acc with
    | none => acc ++ [v]
    | some i => if ua then acc.set i v else acc

/-- The database-update step of `main` (download.py 539-550). -/
def updateDb (h : String → Int) (ua : Bool) (db batch : List VideoInfo) :
    List VideoInfo :=
  batch.foldl (dbStep h ua) db

theorem dbStep_spec (h : String → Int) (ua : Bool) (ids : List String)
    (hinj : ∀ a ∈ ids, ∀ b ∈ ids, h a = h b → a = b)
    (acc : List VideoInfo) (v : VideoInfo)
    (hacc : ∀ k ∈ acc, k.vid ∈ ids) (hv : v.vid ∈ ids)
    (hnd : (acc.map VideoInfo.vid).Nodup) :
    ((dbStep h ua acc v).map VideoInfo.vid).Nodup ∧
    (∀ x ∈ dbStep h ua acc v, x ∈ acc ∨ (x = v ∧ v.missing = false)) ∧
    (∀ k ∈ dbStep h ua acc v, k.vid ∈ ids) ∧
    (∀ x ∈ acc, x.vid ∈ (dbStep h ua acc v).map VideoInfo.vid) ∧
    (v.missing = false → v.vid ∈ (dbStep h ua acc v).map VideoInfo.vid) ∧
    (ua = false → (dbStep h ua acc v).take acc.length = acc) ∧
    acc.length ≤ (dbStep h ua acc v).length := by
  by_cases hm : v.missing
  · simp only [dbStep, if_pos hm]
    refine ⟨hnd, fun x hx => Or.inl hx, hacc, ?_, ?_, fun _ => List.take_length acc, le_refl _⟩
    · intro x hx
      exact List.mem_map_of_mem _ hx
    · intro hf
      exact absurd hm (by simp [hf])
  · simp only [dbStep, if_neg hm]
    cases hidx : pyIndex (fun k => pyEq h k v) acc with
    | none =>
      have hnotin : v.vid ∉ acc.map VideoInfo.vid := by
        intro hmem
        rcases List.mem_map.1 hmem with ⟨k, hk, hkv⟩
        have := ((pyIndex_none_iff _ acc).1 hidx) k hk
        rw [(pyEq_iff_vid h ids hinj k v (hacc k hk) hv).2 hkv] at this
        cases this
      refine ⟨?_, ?_, ?_, ?_, ?_, ?_, ?_⟩
      · rw [List.map_append]
        refine List.Nodup.append hnd (List.nodup_singleton _) ?_
        intro a ha hb
        have hb' : a = v.vid := by simpa using hb
        exact hnotin (hb' ▸ ha)
      · intro x hx
        rcases List.mem_append.1 hx with hx | hx
        · exact Or.inl hx
        · exact Or.inr ⟨List.mem_singleton.1 hx, Bool.eq_false_iff.2 hm⟩
      · intro k hk
        rcases List.mem_append.1 hk with hk | hk
        · exact hacc k hk
        · rw [List.mem_singleton.1 hk]; exact hv
      · intro x hx
        exact List.mem_map_of_mem _ (List.mem_append.2 (Or.inl hx))
      · intro _
        exact List.mem_map_of_mem _ (List.mem_append.2 (Or.inr (List.mem_singleton.2 rfl)))
      · intro _
        exact List.take_left acc [v]
      · simpa using Nat.le_succ _
    | some i =>
      rcases pyIndex_some_get _ acc i hidx with ⟨hlt, hp⟩
      have hvid : (acc.get ⟨i, hlt⟩).vid = v.vid :=
        (pyEq_iff_vid h ids hinj _ v (hacc _ (acc.get_mem _ _)) hv).1 hp
      by_cases hua : ua
      · simp only [if_pos hua]
        have hmap : (acc.set i v).map VideoInfo.vid = acc.map VideoInfo.vid := by
          rw [List.map_set]
          apply set_same
          rw [List.get?_map, List.get?_eq_get hlt]
          simpa [List.get_eq_getElem] using hvid
        refine ⟨?_, ?_, ?_, ?_, ?_, ?_, ?_⟩
        · rw [hmap]; exact hnd
        · intro x hx
          rcases List.mem_or_eq_of_mem_set hx with hx | hx
          · exact Or.inl hx
          · exact Or.inr ⟨hx, Bool.eq_false_iff.2 hm⟩
        · intro k hk
          rcases List.mem_or_eq_of_mem_set hk with hk | hk
          · exact hacc k hk
          · rw [hk]; exact hv
        · intro x hx
          rw [hmap]
          exact List.mem_map_of_mem _ hx
        · intro _
          rw [hmap, ← hvid]
          exact List.mem_map_of_mem _ (acc.get_mem _ _)
        · intro hf
          exact absurd hua (by simp [hf])
        · simp
      · simp only [if_neg hua]
        refine ⟨hnd, fun x hx => Or.inl hx, hacc, ?_, ?_, fun _ => List.take_length acc, le_refl _⟩
        · intro x hx
          exact List.mem_map_of_mem _ hx
        · intro _
          rw [← hvid]
          exact List.mem_map_of_mem _ (acc.get_mem _ _)

theorem updateDb_fold_spec (h : String → Int) (ua : Bool) (ids : List String)
    (hinj : ∀ a ∈ ids, ∀ b ∈ ids, h a = h b → a = b) :
    ∀ (batch acc : List VideoInfo),
      (∀ k ∈ acc, k.vid ∈ ids) → (∀ v ∈ batch, v.vid ∈ ids) →
      (acc.map VideoInfo.vid).Nodup →
      (((batch.foldl (dbStep h ua) acc).map VideoInfo.vid).Nodup ∧
       (∀ x ∈ batch.foldl (dbStep h ua) acc, x ∈ acc ∨ (x ∈ batch ∧ x.missing = false)) ∧
       (∀ x ∈ acc, x.vid ∈ (batch.foldl (dbStep h ua) acc).map VideoInfo.vid) ∧
       (∀ v ∈ batch, v.missing = false →
          v.vid ∈ (batch.foldl (dbStep h ua) acc).map VideoInfo.vid) ∧
       (ua = false → (batch.foldl (dbStep h ua) acc).take acc.length = acc)) := by
  intro batch
  induction batch with
  | nil =>
    intro acc hacc _ hnd
    refine ⟨hnd, fun x hx => Or.inl hx, ?_, by simp, fun _ => List.take_length acc⟩
    intro x hx
    exact List.mem_map_of_mem _ hx
  | cons v batch ih =>
    intro acc hacc hb hnd
    obtain ⟨snd, selem, sids, smono, svid, stake, slen⟩ :=
      dbStep_spec h ua ids hinj acc v hacc (hb v (List.mem_cons_self _ _)) hnd
    obtain ⟨ind, ielem, imono, ivid, itake⟩ :=
      ih (dbStep h ua acc v) sids (fun w hw => hb w (List.mem_cons_of_mem _ hw)) snd
    have transport : ∀ s : String, s ∈ (dbStep h ua acc v).map VideoInfo.vid →
        s ∈ (batch.foldl (dbStep h ua) (dbStep h ua acc v)).map VideoInfo.vid := by
      intro s hs
      rcases List.mem_map.1 hs with ⟨x, hx, rfl⟩
      exact imono x hx
    simp only [List.foldl_cons]
    refine ⟨ind, ?_, ?_, ?_, ?_⟩
    · intro x hx
      rcases ielem x hx with hx' | hx'
      · rcases selem x hx' with hx2 | hx2
        · exact Or.inl hx2
        · exact Or.inr ⟨hx2.1 ▸ List.mem_cons_self _ _, hx2.1 ▸ hx2.2⟩
      · exact Or.inr ⟨List.mem_cons_of_mem _ hx'.1, hx'.2⟩
    · intro x hx
      exact transport _ (smono x hx)
    · intro w hw hwm
      rcases List.mem_cons.1 hw with rfl | hw'
      · exact transport _ (svid hwm)
      · exact ivid w hw' hwm
    · intro hua
      have h1 := itake hua
      have h2 := stake hua
      have h3 : (batch.foldl (dbStep h ua) (dbStep h ua acc v)).take acc.length =
          ((batch.foldl (dbStep h ua) (dbStep h ua acc v)).take
            (dbStep h ua acc v).length).take acc.length := by
        rw [List.take_take, Nat.min_eq_left slen]
      rw [h3, h1, h2]

/-- C7 counterexample: membership and `list.index` use `__eq__`, i.e.
hash equality of the ids, so under a hash that collides on "aa" and "bb"
(a legal str hash) the update-all replacement of a record with id "bb"
hits the first hash-equal database entry — the one with id "aa" — and
overwrites it, leaving two records with id "bb": the claimed invariant is
broken even though the initial database had no duplicate ids. -/
theorem c7_counterexample :
    (([⟨"aa", 1, "A", [], false⟩, ⟨"bb", 2, "B", [], false⟩] :
        List VideoInfo).map VideoInfo.vid).Nodup ∧
    updateDb (fun _ => 0) true
        [⟨"aa", 1, "A", [], false⟩, ⟨"bb", 2, "B", [], false⟩]
        [⟨"bb", 3, "C", [], false⟩] =
      [⟨"bb", 3, "C", [], false⟩, ⟨"bb", 2, "B", [], false⟩] ∧
    ¬ ((updateDb (fun _ => 0) true
        [⟨"aa", 1, "A", [], false⟩, ⟨"bb", 2, "B", [], false⟩]
        [⟨"bb", 3, "C", [], false⟩]).map VideoInfo.vid).Nodup := by
  refine ⟨by decide, by decide, by decide⟩

/-- C7 amended: provided the runtime hash does not collide on the ids
involved (db and batch), the database-update step preserves the
no-duplicate-id invariant: the resulting records all come from the old
database or from non-missing batch records (missing placeholders are
never added), every non-missing batch record's id is present afterwards,
and when update-all mode is off the original database is left in place as
a prefix (records are only appended, never replaced). -/
theorem c7_updateDb_invariant (h : String → Int) (updateAll : Bool)
    (db batch : List VideoInfo)
    (hinj : ∀ a ∈ db.map VideoInfo.vid ++ batch.map VideoInfo.vid,
      ∀ b ∈ db.map VideoInfo.vid ++ batch.map VideoInfo.vid, h a = h b → a = b)
    (hdb : (db.map VideoInfo.vid).Nodup) :
    ((updateDb h updateAll db batch).map VideoInfo.vid).Nodup ∧
    (∀ x ∈ updateDb h updateAll db batch, x ∈ db ∨ (x ∈ batch ∧ x.missing = false)) ∧
    (∀ v ∈ batch, v.missing = false →
      v.vid ∈ (updateDb h updateAll db batch).map VideoInfo.vid) ∧
    (updateAll = false → (updateDb h updateAll db batch).take db.length = db) := by
  obtain ⟨hn, he, _, hv, ht⟩ := updateDb_fold_spec h updateAll
    (db.map VideoInfo.vid ++ batch.map VideoInfo.vid) hinj batch db
    (fun k hk => List.mem_append.2 (Or.inl (List.mem_map_of_mem _ hk)))
    (fun v hvm => List.mem_append.2 (Or.inr (List.mem_map_of_mem _ hvm))) hdb
  exact ⟨hn, he, hv, ht⟩

/-- C7 witness: a concrete database and batch (one new record, one
missing placeholder, one update of an existing record) under a concrete
collision-free hash. -/
theorem c7_updateDb_invariant_witness :
    ((∀ a ∈ ([⟨"aa", 5, "A", [], false⟩] : List VideoInfo).map VideoInfo.vid ++
        ([⟨"bcd", 7, "B", [], false⟩, ⟨"e", 0, "e", [], true⟩,
          ⟨"aa", 8, "A2", [], false⟩] : List VideoInfo).map VideoInfo.vid,
      ∀ b ∈ ([⟨"aa", 5, "A", [], false⟩] : List VideoInfo).map VideoInfo.vid ++
        ([⟨"bcd", 7, "B", [], false⟩, ⟨"e", 0, "e", [], true⟩,
          ⟨"aa", 8, "A2", [], false⟩] : List VideoInfo).map VideoInfo.vid,
        (fun s : String => Int.ofNat s.length) a =
          (fun s : String => Int.ofNat s.length) b → a = b) ∧
      (([⟨"aa", 5, "A", [], false⟩] : List VideoInfo).map VideoInfo.vid).Nodup) ∧
    (((updateDb (fun s : String => Int.ofNat s.length) false
        [⟨"aa", 5, "A", [], false⟩]
        [⟨"bcd", 7, "B", [], false⟩, ⟨"e", 0, "e", [], true⟩,
          ⟨"aa", 8, "A2", [], false⟩]).map VideoInfo.vid).Nodup ∧
      (∀ x ∈ updateDb (fun s : String => Int.ofNat s.length) false
          [⟨"aa", 5, "A", [], false⟩]
          [⟨"bcd", 7, "B", [], false⟩, ⟨"e", 0, "e", [], true⟩,
            ⟨"aa", 8, "A2", [], false⟩],
        x ∈ ([⟨"aa", 5, "A", [], false⟩] : List VideoInfo) ∨
          (x ∈ ([⟨"bcd", 7, "B", [], false⟩, ⟨"e", 0, "e", [], true⟩,
            ⟨"aa", 8, "A2", [], false⟩] : List VideoInfo) ∧ x.missing = false)) ∧
      (∀ v ∈ ([⟨"bcd", 7, "B", [], false⟩, ⟨"e", 0, "e", [], true⟩,
          ⟨"aa", 8, "A2", [], false⟩] : List VideoInfo), v.missing = false →
        v.vid ∈ (updateDb (fun s : String => Int.ofNat s.length) false
          [⟨"aa", 5, "A", [], false⟩]
          [⟨"bcd", 7, "B", [], false⟩, ⟨"e", 0, "e", [], true⟩,
            ⟨"aa", 8, "A2", [], false⟩]).map VideoInfo.vid) ∧
      (false = false → (updateDb (fun s : String => Int.ofNat s.length) false
          [⟨"aa", 5, "A", [], false⟩]
          [⟨"bcd", 7, "B", [], false⟩, ⟨"e", 0, "e", [], true⟩,
            ⟨"aa", 8, "A2", [], false⟩]).take
          ([⟨"aa", 5, "A", [], false⟩] : List VideoInfo).length =
          [⟨"aa", 5, "A", [], false⟩])) :=
  ⟨⟨by decide, by decide⟩,
   c7_updateDb_invariant (fun s : String => Int.ofNat s.length) false
     [⟨"aa", 5, "A", [], false⟩]
     [⟨"bcd", 7, "B", [], false⟩, ⟨"e", 0, "e", [], true⟩, ⟨"aa", 8, "A2", [], false⟩]
     (by decide) (by decide)⟩

/-- An entry of the symlink directory: a symlink with its stored target
(as written by `os.symlink`), a regular file, or anything else
(directory, ...). -/
inductive DirEntry
  | link (target : PathC)
  | file
  | other
deriving DecidableEq, Repr

/-- The file-system state `create_symlinks_locale` works on: whether the
destination directory exists, its members (name, entry) in listing order
(names never repeat in a real directory; stated as a hypothesis where
needed), and the raw storage's regular files as absolute normalized
paths. -/
structure FS where
  dstExists : Bool
  entries : List (String × DirEntry)
  raws : List AbsPath
deriving DecidableEq, Repr

/-- The mutating filesystem operations the synchronizer performs. -/
inductive Mutation
  | mkdirDst
  | unlink (name : String)
  | symlink (target : PathC) (name : String)
deriving DecidableEq, Repr

/-- `os.path.realpath` of a symlink member of `dst` with stored target
`t` (raw files are regular, so resolution stops there). -/
def resolveLink (dst : AbsPath) (t : PathC) : AbsPath :=
  if t.isAbs then normSteps [] t.comps else normSteps dst t.comps

def pathBasename (p : AbsPath) : String := p.getLastD ""

/-- Characters of the identifier token of `id_from_path`'s pattern. -/
def isIdChar (c : Char) : Bool :=
  ('A' ≤ c && c ≤ 'Z') || ('a' ≤ c && c ≤ 'z') || ('0' ≤ c && c ≤ '9') ||
  c == '_' || c == '-'

def isExtChar (c : Char) : Bool :=
  ('a' ≤ c && c ≤ 'z') || ('0' ≤ c && c ≤ '9')

/-- Greedy backtracking split point for the pattern
([A-Za-z0-9_-]{8,})\.[a-z0-9]{1,4} anchored at the start: the largest
j ≥ 8 such that position j holds '.' followed by at least one extension
character. -/
def idSplit (l : List Char) : Nat → Option Nat
  | 0 => none
  | Nat.succ k =>
    if 8 ≤ Nat.succ k && (l.get? (Nat.succ k) == some '.') &&
        ((l.get? (Nat.succ k + 1)).any isExtChar) then some (Nat.succ k)
    else idSplit l k

/-- `id_from_path` (download.py 254-261) applied to a file name (the
basename of the real path): `re.match` of the identifier pattern, group 1.
A match needs the leading run of id characters to admit a split j ≥ 8
with a dot and an extension character (trailing text is allowed:
`re.match` only anchors the start). -/
def id_from_name (name : String) : Option String :=
  (idSplit name.data (name.data.takeWhile isIdChar).length).map
    (fun k => String.mk (name.data.take k))

/-- Audit-pass log events (download.py 313-318). -/
inductive LogEvent
  | warnInvalid (name : String)
  | debugDead (name : String)
deriving DecidableEq, Repr

/-- What the audit pass logs for one directory member: a warning for a
non-link or for a link whose real path's basename does not decode to an
identifier, a debug message ("Removing dead symlink", but nothing is
removed) for a remaining broken link, nothing otherwise. -/
def auditLog (fs : FS) (dst : AbsPath) (p : String × DirEntry) : Option LogEvent :=
  match p.2 with
  | DirEntry.link t =>
    if (id_from_name (pathBasename (resolveLink dst t))).isNone then
      some (LogEvent.warnInvalid p.1)
    else if !(fs.raws.contains (resolveLink dst t)) then
      some (LogEvent.debugDead p.1)
    else none
  | _ => some (LogEvent.warnInvalid p.1)

/-- The audit pass (download.py 313-318): one loop over the directory
listing whose body only logs. -/
def auditPass (fs : FS) (dst : AbsPath) : FS × List LogEvent :=
  fs.entries.foldl (fun acc p =>
    match auditLog fs dst p with
    | some ev => (acc.1, acc.2 ++ [ev])
    | none => acc) (fs, [])

theorem auditPass_go (fs : FS) (dst : AbsPath) :
    ∀ (l : List (String × DirEntry)) (acc : FS × List LogEvent),
      l.foldl (fun acc p =>
        match auditLog fs dst p with
        | some ev => (acc.1, acc.2 ++ [ev])
        | none => acc) acc =
      (acc.1, acc.2 ++ l.filterMap (auditLog fs dst)) := by
  intro l
  induction l with
  | nil => intro acc; simp
  | cons p l ih =>
    intro acc
    cases hl : auditLog fs dst p with
    | none => simp [List.foldl_cons, hl, ih acc]
    | some ev => simp [List.foldl_cons, hl, ih (acc.1, acc.2 ++ [ev])]

theorem auditPass_eq (fs : FS) (dst : AbsPath) :
    auditPass fs dst = (fs, fs.entries.filterMap (auditLog fs dst)) := by
  unfold auditPass
  rw [auditPass_go]
  simp

theorem auditPass_fst (fs : FS) (dst : AbsPath) : (auditPass fs dst).1 = fs := by
  rw [auditPass_eq]

/-- C8: the audit pass of the symlink synchronizer performs no filesystem
mutation — the state is returned exactly as given — and the suspect
members (non-links, links whose resolved name has no valid identifier,
broken links) are exactly the logged ones. -/
theorem c8_audit_no_mutation (fs : FS) (dst : AbsPath) :
    (auditPass fs dst).1 = fs ∧
    (∀ p ∈ fs.entries, ∀ ev, auditLog fs dst p = some ev →
      ev ∈ (auditPass fs dst).2) ∧
    (∀ ev ∈ (auditPass fs dst).2, ∃ p ∈ fs.entries, auditLog fs dst p = some ev) := by
  refine ⟨auditPass_fst fs dst, ?_, ?_⟩
  · intro p hp ev hev
    rw [auditPass_eq]
    exact List.mem_filterMap.2 ⟨p, hp, hev⟩
  · intro ev hev
    rw [auditPass_eq] at hev
    exact List.mem_filterMap.1 hev

/-- `path.isfile` on a member of the destination directory (follows
symlinks; the model's regular files are the raw files). -/
def isfileEntry (fs : FS) (dst : AbsPath) (e : DirEntry) : Bool :=
  match e with
  | DirEntry.link t => fs.raws.contains (resolveLink dst t)
  | DirEntry.file => true
  | DirEntry.other => false

/-- `find_video_link` (download.py 303-308): the members of `dst` that
are symlinks, whose target exists as a file, and whose real path equals
the raw file's real path (`target` is an absolute normalized path of a
regular file, so its real path is itself). -/
def findVideoLink (fs : FS) (dst : AbsPath) (target : AbsPath) : List String :=
  (fs.entries.filter (fun p =>
    match p.2 with
    | DirEntry.link t => isfileEntry fs dst (DirEntry.link t) &&
        (resolveLink dst t == target)
    | _ => false)).map Prod.fst

/-- `os.unlink` inside `dst`. -/
def unlinkName (fs : FS) (n : String) : FS :=
  { fs with entries := fs.entries.filter (fun p => p.1 != n) }

/-- `path.islink` / occupancy test for a name in `dst`. -/
def lookupEntry (fs : FS) (n : String) : Option DirEntry :=
  (fs.entries.find? (fun p => p.1 == n)).map Prod.snd

/-- The pretty symlink name (download.py 324-325):
`sanitize_name(title) + '.' + basename(raw).removeprefix(vid + '.')`. -/
def titleFilename (v : VideoInfo) (locale : Option String) (raw : AbsPath) : String :=
  sanitize_name (v.title locale) ++ "." ++ dropPre (pathBasename raw) (v.vid ++ ".")

/-- The unlink loop of one reconciliation iteration (download.py
327-334): every found link whose name is not the pretty name is
unlinked. -/
def cleanupLinks (tf : String) (links : List String) (S : FS) : FS :=
  links.foldl (fun a n => if n == tf then a else unlinkName a n) S

/-- The creation step (download.py 336-343): remove a link occupying the
pretty name, then create the symlink with a target relative to `dst`; a
non-link occupant makes `os.symlink` raise FileExistsError. -/
def createLink (dst : AbsPath) (raw : AbsPath) (tf : String) (S : FS)
    (muts : List Mutation) : Except String (FS × List Mutation) :=
  match lookupEntry S tf with
  | some (DirEntry.link _) =>
    Except.ok ({ unlinkName S tf with entries := (unlinkName S tf).entries ++
        [(tf, DirEntry.link ⟨false, relpathC raw dst⟩)] },
      muts ++ [Mutation.unlink tf, Mutation.symlink ⟨false, relpathC raw dst⟩ tf])
  | some _ => Except.error "FileExistsError"
  | none =>
    Except.ok ({ S with entries := S.entries ++
        [(tf, DirEntry.link ⟨false, relpathC raw dst⟩)] },
      muts ++ [Mutation.symlink ⟨false, relpathC raw dst⟩ tf])

/-- One reconciliation iteration for an entry with a raw path
(download.py 324-343): count the correctly named links to the raw file
while unlinking the wrongly named ones; when none is found, run the
creation step. -/
def processRaw (dst : AbsPath) (locale : Option String) (S : FS)
    (muts : List Mutation) (v : VideoInfo) (raw : AbsPath) :
    Except String (FS × List Mutation) :=
  let tf := titleFilename v locale raw
  let links := findVideoLink S dst raw
  if (links.filter (fun n => n == tf)).length ≠ 0 then
    Except.ok (cleanupLinks tf links S,
      muts ++ (links.filter (fun n => n != tf)).map Mutation.unlink)
  else
    createLink dst raw tf (cleanupLinks tf links S)
      (muts ++ (links.filter (fun n => n != tf)).map Mutation.unlink)

/-- One iteration of the reconciliation loop (download.py 320-343).
Entries without a raw path only log ("Video not found"). -/
def processEntry (dst : AbsPath) (locale : Option String)
    (st : FS × List Mutation) (v : VideoInfo) (rawPath : Option AbsPath) :
    Except String (FS × List Mutation) :=
  match rawPath with
  | none => Except.ok st
  | some raw => processRaw dst locale st.1 st.2 v raw

/-- The reconciliation loop over all entries; an uncaught exception
aborts it. -/
def runEntries (dst : AbsPath) (locale : Option String) :
    List (VideoInfo × Option AbsPath) → FS × List Mutation →
    Except String (FS × List Mutation)
  | [], st => Except.ok st
  | p :: rest, st =>
    match processEntry dst locale st p.1 p.2 with
    | Except.ok st' => runEntries dst locale rest st'
    | Except.error e => Except.error e

/-- `create_symlinks_locale` (download.py 300-343): create the directory
if absent, run the diagnostic audit pass (logs only), then reconcile each
entry.  Returns the final state and the mutations performed, in order. -/
def createSymlinksLocale (fs : FS) (dst : AbsPath)
    (videos : List (VideoInfo × Option AbsPath)) (locale : Option String) :
    Except String (FS × List Mutation) :=
  if fs.dstExists then
    runEntries dst locale videos ((auditPass fs dst).1, [])
  else
    runEntries dst locale videos
      ((auditPass { dstExists := true, entries := [], raws := fs.raws } dst).1,
       [Mutation.mkdirDst])

/-- C1 counterexample: with a single entry whose raw file does not exist
(a broken target), the first run creates the link and the second run —
with identical inputs — unlinks and re-creates it: two mutations, not
zero. -/
theorem c1_counterexample :
    createSymlinksLocale ⟨true, [], []⟩ ["d"]
        [(⟨"abcdefgh", 10, "T", [], false⟩, some ["r", "abcdefgh.mp4"])] none =
      Except.ok
        (⟨true, [("T.mp4", DirEntry.link ⟨false, ["..", "r", "abcdefgh.mp4"]⟩)], []⟩,
         [Mutation.symlink ⟨false, ["..", "r", "abcdefgh.mp4"]⟩ "T.mp4"]) ∧
    createSymlinksLocale
        ⟨true, [("T.mp4", DirEntry.link ⟨false, ["..", "r", "abcdefgh.mp4"]⟩)], []⟩
        ["d"] [(⟨"abcdefgh", 10, "T", [], false⟩, some ["r", "abcdefgh.mp4"])] none =
      Except.ok
        (⟨true, [("T.mp4", DirEntry.link ⟨false, ["..", "r", "abcdefgh.mp4"]⟩)], []⟩,
         [Mutation.unlink "T.mp4",
          Mutation.symlink ⟨false, ["..", "r", "abcdefgh.mp4"]⟩ "T.mp4"]) ∧
    ([Mutation.unlink "T.mp4",
      Mutation.symlink ⟨false, ["..", "r", "abcdefgh.mp4"]⟩ "T.mp4"] ≠
      ([] : List Mutation)) := by
  refine ⟨rfl, rfl, by decide⟩

/-- A real directory listing has pairwise distinct names. -/
abbrev NamesNodup (fs : FS) : Prop := (fs.entries.map Prod.fst).Nodup

/-- The state owns entry (v, r): exactly the correctly named link to the
raw file `r` is present — it resolves to `r`, and no other link in the
directory resolves to `r`. -/
def Owns (dst : AbsPath) (locale : Option String) (S : FS) (v : VideoInfo)
    (r : AbsPath) : Prop :=
  (∃ t : PathC, (titleFilename v locale r, DirEntry.link t) ∈ S.entries ∧
    resolveLink dst t = r) ∧
  (∀ n t, (n, DirEntry.link t) ∈ S.entries → resolveLink dst t = r →
    n = titleFilename v locale r)

theorem contains_iff_mem {l : List AbsPath} {a : AbsPath} :
    l.contains a = true ↔ a ∈ l := by
  induction l with
  | nil => simp
  | cons x l ih => simp [List.contains_cons, ih]

theorem mem_findVideoLink {S : FS} {dst target : AbsPath} {n : String} :
    n ∈ findVideoLink S dst target ↔
      ∃ t : PathC, (n, DirEntry.link t) ∈ S.entries ∧
        S.raws.contains (resolveLink dst t) = true ∧
        resolveLink dst t = target := by
  unfold findVideoLink
  rw [List.mem_map]
  constructor
  · rintro ⟨⟨n', e⟩, hp, rfl⟩
    rw [List.mem_filter] at hp
    obtain ⟨hmem, hcond⟩ := hp
    cases e with
    | link t =>
      simp only [isfileEntry, Bool.and_eq_true, beq_iff_eq] at hcond
      exact ⟨t, hmem, hcond.1, hcond.2⟩
    | file => simp at hcond
    | other => simp at hcond
  · rintro ⟨t, hmem, hc, hres⟩
    refine ⟨(n, DirEntry.link t), List.mem_filter.2 ⟨hmem, ?_⟩, rfl⟩
    simp only [isfileEntry, Bool.and_eq_true, beq_iff_eq]
    exact ⟨hc, hres⟩

theorem mem_unlinkName {fs : FS} {n : String} {p : String × DirEntry} :
    p ∈ (unlinkName fs n).entries ↔ p ∈ fs.entries ∧ p.1 ≠ n := by
  unfold unlinkName
  rw [List.mem_filter]
  simp [bne_iff_ne]

theorem unlinkName_nodup {fs : FS} {n : String} (h : NamesNodup fs) :
    NamesNodup (unlinkName fs n) :=
  List.Nodup.sublist (List.Sublist.map Prod.fst (List.filter_sublist _)) h

theorem nodup_keys_eq {l : List (String × DirEntry)}
    (hnd : (l.map Prod.fst).Nodup) {n : String} {e1 e2 : DirEntry}
    (h1 : (n, e1) ∈ l) (h2 : (n, e2) ∈ l) : e1 = e2 := by
  induction l with
  | nil => cases h1
  | cons p l ih =>
    rw [List.map_cons, List.nodup_cons] at hnd
    rcases List.mem_cons.1 h1 with h1 | h1 <;> rcases List.mem_cons.1 h2 with h2 | h2
    · exact congrArg Prod.snd (h1.trans h2.symm)
    · exfalso
      apply hnd.1
      have hn2 : n ∈ List.map Prod.fst l := List.mem_map_of_mem Prod.fst h2
      rw [← h1]
      exact hn2
    · exfalso
      apply hnd.1
      have hn1 : n ∈ List.map Prod.fst l := List.mem_map_of_mem Prod.fst h1
      rw [← h2]
      exact hn1
    · exact ih hnd.2 h1 h2

theorem lookupEntry_none {fs : FS} {n : String}
    (h : lookupEntry fs n = none) : ∀ p ∈ fs.entries, p.1 ≠ n := by
  unfold lookupEntry at h
  rw [Option.map_eq_none'] at h
  rw [List.find?_eq_none] at h
  intro p hp he
  exact (h p hp) (by simp [he])

theorem cleanupLinks_spec (tf : String) :
    ∀ (ns : List String) (acc : FS),
      (cleanupLinks tf ns acc).raws = acc.raws ∧
      (cleanupLinks tf ns acc).dstExists = acc.dstExists ∧
      (NamesNodup acc → NamesNodup (cleanupLinks tf ns acc)) ∧
      (∀ p : String × DirEntry,
        p ∈ (cleanupLinks tf ns acc).entries ↔
          p ∈ acc.entries ∧ (p.1 ∈ ns → p.1 = tf)) := by
  intro ns
  induction ns with
  | nil =>
    intro acc
    refine ⟨rfl, rfl, id, ?_⟩
    intro p
    simp [cleanupLinks]
  | cons n ns ih =>
    intro acc
    by_cases hn : n = tf
    · have hstep : cleanupLinks tf (n :: ns) acc = cleanupLinks tf ns acc := by
        unfold cleanupLinks
        rw [List.foldl_cons, if_pos (by simp [hn])]
      obtain ⟨h1, h2, h3, h4⟩ := ih acc
      rw [hstep]
      refine ⟨h1, h2, h3, ?_⟩
      intro p
      rw [h4 p]
      constructor
      · rintro ⟨hp, hc⟩
        refine ⟨hp, fun hm => ?_⟩
        rcases List.mem_cons.1 hm with hm | hm
        · rw [hm, hn]
        · exact hc hm
      · rintro ⟨hp, hc⟩
        exact ⟨hp, fun hm => hc (List.mem_cons_of_mem _ hm)⟩
    · have hstep : cleanupLinks tf (n :: ns) acc =
          cleanupLinks tf ns (unlinkName acc n) := by
        unfold cleanupLinks
        rw [List.foldl_cons, if_neg (by simp [hn])]
      obtain ⟨h1, h2, h3, h4⟩ := ih (unlinkName acc n)
      rw [hstep]
      refine ⟨by rw [h1]; rfl, by rw [h2]; rfl, fun hnd => h3 (unlinkName_nodup hnd), ?_⟩
      intro p
      rw [h4 p, mem_unlinkName]
      constructor
      · rintro ⟨⟨hp, hpn⟩, hc⟩
        refine ⟨hp, fun hm => ?_⟩
        rcases List.mem_cons.1 hm with hm | hm
        · exact absurd hm hpn
        · exact hc hm
      · rintro ⟨hp, hc⟩
        have hpn : p.1 ≠ n := by
          intro he
          have htf : p.1 = tf := hc (by rw [he]; exact List.mem_cons_self _ _)
          exact hn (he ▸ htf)
        exact ⟨⟨hp, hpn⟩, fun hm => hc (List.mem_cons_of_mem _ hm)⟩

theorem processRaw_owned (dst : AbsPath) (locale : Option String) (S : FS)
    (muts : List Mutation) (v : VideoInfo) (r : AbsPath)
    (hr : S.raws.contains r = true)
    (hown : Owns dst locale S v r) :
    processRaw dst locale S muts v r = Except.ok (S, muts) := by
  obtain ⟨⟨t, htm, htr⟩, huniq⟩ := hown
  have hmemtf : titleFilename v locale r ∈ findVideoLink S dst r :=
    mem_findVideoLink.2 ⟨t, htm, by rw [htr]; exact hr, htr⟩
  have hall : ∀ n ∈ findVideoLink S dst r, n = titleFilename v locale r := by
    intro n hn
    obtain ⟨t', ht'm, _, ht'r⟩ := mem_findVideoLink.1 hn
    exact huniq n t' ht'm ht'r
  have hfound : ((findVideoLink S dst r).filter
      (fun n => n == titleFilename v locale r)).length ≠ 0 := by
    intro hlen
    rw [List.length_eq_zero] at hlen
    have hmem : titleFilename v locale r ∈ (findVideoLink S dst r).filter
        (fun n => n == titleFilename v locale r) :=
      List.mem_filter.2 ⟨hmemtf, by simp⟩
    rw [hlen] at hmem
    cases hmem
  have hclean : ∀ ns, (∀ n ∈ ns, n = titleFilename v locale r) →
      cleanupLinks (titleFilename v locale r) ns S = S := by
    intro ns
    induction ns with
    | nil => intro _; rfl
    | cons n ns ih =>
      intro hns
      have hn : n = titleFilename v locale r := hns n (List.mem_cons_self _ _)
      have hstep : cleanupLinks (titleFilename v locale r) (n :: ns) S =
          cleanupLinks (titleFilename v locale r) ns S := by
        unfold cleanupLinks
        rw [List.foldl_cons, if_pos (by simp [hn])]
      rw [hstep]
      exact ih (fun m hm => hns m (List.mem_cons_of_mem _ hm))
  have hfilter : (findVideoLink S dst r).filter
      (fun n => n != titleFilename v locale r) = [] := by
    rw [List.filter_eq_nil]
    intro n hn
    simp [hall n hn]
  simp only [processRaw]
  rw [if_pos hfound, hclean _ hall, hfilter]
  simp

theorem processRaw_spec (dst : AbsPath) (locale : Option String) (S : FS)
    (muts : List Mutation) (v : VideoInfo) (r : AbsPath)
    (out : FS × List Mutation)
    (hnd : NamesNodup S) (hrm : r ∈ S.raws) (hnodd : ".." ∉ r)
    (hok : processRaw dst locale S muts v r = Except.ok out) :
    NamesNodup out.1 ∧ out.1.raws = S.raws ∧ out.1.dstExists = S.dstExists ∧
    Owns dst locale out.1 v r ∧
    (∀ v₀ r₀, r₀ ≠ r → titleFilename v₀ locale r₀ ≠ titleFilename v locale r →
      Owns dst locale S v₀ r₀ → Owns dst locale out.1 v₀ r₀) := by
  have hcont : S.raws.contains r = true := contains_iff_mem.2 hrm
  obtain ⟨c1, c2, c3, c4⟩ :=
    cleanupLinks_spec (titleFilename v locale r) (findVideoLink S dst r) S
  have hlinks_iff : ∀ n, n ∈ findVideoLink S dst r ↔
      ∃ t, (n, DirEntry.link t) ∈ S.entries ∧ resolveLink dst t = r := by
    intro n
    constructor
    · intro hn
      obtain ⟨t', h1, _, h3⟩ := mem_findVideoLink.1 hn
      exact ⟨t', h1, h3⟩
    · rintro ⟨t', h1, h3⟩
      exact mem_findVideoLink.2 ⟨t', h1, by rw [h3]; exact hcont, h3⟩
  have hpres : ∀ v₀ r₀, r₀ ≠ r →
      titleFilename v₀ locale r₀ ≠ titleFilename v locale r →
      Owns dst locale S v₀ r₀ →
      ∃ t₀, (titleFilename v₀ locale r₀, DirEntry.link t₀) ∈
          (cleanupLinks (titleFilename v locale r) (findVideoLink S dst r) S).entries ∧
        resolveLink dst t₀ = r₀ := by
    intro v₀ r₀ hr0 _ hown₀
    obtain ⟨⟨t₀, ht₀m, ht₀r⟩, _⟩ := hown₀
    have hnot : titleFilename v₀ locale r₀ ∉ findVideoLink S dst r := by
      intro hin
      obtain ⟨t₁, ht₁m, ht₁r⟩ := (hlinks_iff _).1 hin
      have : DirEntry.link t₀ = DirEntry.link t₁ := nodup_keys_eq hnd ht₀m ht₁m
      cases this
      exact hr0 (ht₀r ▸ ht₁r)
    exact ⟨t₀, (c4 _).2 ⟨ht₀m, fun hin => absurd hin hnot⟩, ht₀r⟩
  by_cases hc : ((findVideoLink S dst r).filter
      (fun n => n == titleFilename v locale r)).length ≠ 0
  · -- a correctly named link already exists: only cleanup happens
    simp only [processRaw] at hok
    rw [if_pos hc] at hok
    injection hok with hout
    subst hout
    have hex : titleFilename v locale r ∈ findVideoLink S dst r := by
      have hne : (findVideoLink S dst r).filter
          (fun n => n == titleFilename v locale r) ≠ [] := by
        intro he
        exact hc (by rw [he]; rfl)
      obtain ⟨n, hn⟩ := List.exists_mem_of_ne_nil _ hne
      obtain ⟨hn1, hn2⟩ := List.mem_filter.1 hn
      have : n = titleFilename v locale r := by simpa using hn2
      exact this ▸ hn1
    obtain ⟨t, htm, htr⟩ := (hlinks_iff _).1 hex
    refine ⟨c3 hnd, c1, c2, ⟨⟨t, (c4 _).2 ⟨htm, fun _ => rfl⟩, htr⟩, ?_⟩, ?_⟩
    · intro n t' hmem hres
      obtain ⟨hmS, himp⟩ := (c4 _).1 hmem
      exact himp ((hlinks_iff n).2 ⟨t', hmS, hres⟩)
    · intro v₀ r₀ hr0 htf0 hown₀
      refine ⟨hpres v₀ r₀ hr0 htf0 hown₀, ?_⟩
      intro n t' hmem hres
      exact hown₀.2 n t' ((c4 _).1 hmem).1 hres
  · -- no correctly named link: cleanup removes every link to r,
    -- then the creation step runs
    simp only [processRaw] at hok
    rw [if_neg hc] at hok
    have hntf : titleFilename v locale r ∉ findVideoLink S dst r := by
      intro hin
      apply hc
      intro hlen
      rw [List.length_eq_zero] at hlen
      have hmem : titleFilename v locale r ∈ (findVideoLink S dst r).filter
          (fun n => n == titleFilename v locale r) :=
        List.mem_filter.2 ⟨hin, by simp⟩
      rw [hlen] at hmem
      cases hmem
    have hS1clean : ∀ n t',
        (n, DirEntry.link t') ∈ (cleanupLinks (titleFilename v locale r)
          (findVideoLink S dst r) S).entries →
        resolveLink dst t' ≠ r := by
      intro n t' hmem hres
      obtain ⟨hmS, himp⟩ := (c4 _).1 hmem
      have hn : n = titleFilename v locale r :=
        himp ((hlinks_iff n).2 ⟨t', hmS, hres⟩)
      exact hntf (hn ▸ (hlinks_iff n).2 ⟨t', hmS, hres⟩)
    have hS1nd : NamesNodup (cleanupLinks (titleFilename v locale r)
        (findVideoLink S dst r) S) := c3 hnd
    have hresolve_new : resolveLink dst ⟨false, relpathC r dst⟩ = r := by
      simp only [resolveLink]
      exact normSteps_relpathC r dst hnodd
    unfold createLink at hok
    cases hlk : lookupEntry (cleanupLinks (titleFilename v locale r)
        (findVideoLink S dst r) S) (titleFilename v locale r) with
    | none =>
      rw [hlk] at hok
      injection hok with hout
      subst hout
      have htfnot : ∀ p ∈ (cleanupLinks (titleFilename v locale r)
          (findVideoLink S dst r) S).entries, p.1 ≠ titleFilename v locale r :=
        lookupEntry_none hlk
      refine ⟨?_, c1, c2, ⟨⟨⟨false, relpathC r dst⟩, ?_, hresolve_new⟩, ?_⟩, ?_⟩
      · show ((_ ++ [(titleFilename v locale r, _)]).map Prod.fst).Nodup
        rw [List.map_append]
        refine List.Nodup.append (c3 hnd) (List.nodup_singleton _) ?_
        intro a ha hb
        have hb' : a = titleFilename v locale r := by simpa using hb
        obtain ⟨p, hp, hpa⟩ := List.mem_map.1 ha
        exact htfnot p hp (hpa.trans hb')
      · exact List.mem_append.2 (Or.inr (List.mem_singleton.2 rfl))
      · intro n t' hmem hres
        rcases List.mem_append.1 hmem with hmem | hmem
        · exact absurd hres (hS1clean n t' hmem)
        · have := List.mem_singleton.1 hmem
          exact congrArg Prod.fst this
      · intro v₀ r₀ hr0 htf0 hown₀
        obtain ⟨t₀, ht₀m, ht₀r⟩ := hpres v₀ r₀ hr0 htf0 hown₀
        refine ⟨⟨t₀, List.mem_append.2 (Or.inl ht₀m), ht₀r⟩, ?_⟩
        intro n t' hmem hres
        rcases List.mem_append.1 hmem with hmem | hmem
        · exact hown₀.2 n t' ((c4 _).1 hmem).1 hres
        · have heq := List.mem_singleton.1 hmem
          have ht' : t' = ⟨false, relpathC r dst⟩ := by
            have := congrArg Prod.snd heq
            simpa using this
          rw [ht', hresolve_new] at hres
          exact absurd hres.symm hr0
    | some e =>
      cases e with
      | link t₂ =>
        rw [hlk] at hok
        injection hok with hout
        subst hout
        refine ⟨?_, c1, c2, ⟨⟨⟨false, relpathC r dst⟩, ?_, hresolve_new⟩, ?_⟩, ?_⟩
        · show ((_ ++ [(titleFilename v locale r, _)]).map Prod.fst).Nodup
          rw [List.map_append]
          refine List.Nodup.append (unlinkName_nodup hS1nd) (List.nodup_singleton _) ?_
          intro a ha hb
          have hb' : a = titleFilename v locale r := by simpa using hb
          obtain ⟨p, hp, hpa⟩ := List.mem_map.1 ha
          exact (mem_unlinkName.1 hp).2 (hpa.trans hb')
        · exact List.mem_append.2 (Or.inr (List.mem_singleton.2 rfl))
        · intro n t' hmem hres
          rcases List.mem_append.1 hmem with hmem | hmem
          · exact absurd hres (hS1clean n t' (mem_unlinkName.1 hmem).1)
          · have := List.mem_singleton.1 hmem
            exact congrArg Prod.fst this
        · intro v₀ r₀ hr0 htf0 hown₀
          obtain ⟨t₀, ht₀m, ht₀r⟩ := hpres v₀ r₀ hr0 htf0 hown₀
          refine ⟨⟨t₀, List.mem_append.2 (Or.inl (mem_unlinkName.2 ⟨ht₀m, htf0⟩)), ht₀r⟩, ?_⟩
          intro n t' hmem hres
          rcases List.mem_append.1 hmem with hmem | hmem
          · exact hown₀.2 n t' ((c4 _).1 (mem_unlinkName.1 hmem).1).1 hres
          · have heq := List.mem_singleton.1 hmem
            have ht' : t' = ⟨false, relpathC r dst⟩ := by
              have := congrArg Prod.snd heq
              simpa using this
            rw [ht', hresolve_new] at hres
            exact absurd hres.symm hr0
      | file =>
        rw [hlk] at hok
        cases hok
      | other =>
        rw [hlk] at hok
        cases hok

theorem runEntries_noop (dst : AbsPath) (locale : Option String) :
    ∀ (videos : List (VideoInfo × Option AbsPath)) (S : FS) (muts : List Mutation),
      (∀ p ∈ videos, ∀ r ∈ p.2.toList,
        S.raws.contains r = true ∧ Owns dst locale S p.1 r) →
      runEntries dst locale videos (S, muts) = Except.ok (S, muts) := by
  intro videos
  induction videos with
  | nil => intro S muts _; rfl
  | cons p rest ih =>
    intro S muts hall
    cases hp2 : p.2 with
    | none =>
      have hpe : processEntry dst locale (S, muts) p.1 p.2 = Except.ok (S, muts) := by
        rw [hp2]; rfl
      simp only [runEntries, hpe]
      exact ih S muts (fun q hq => hall q (List.mem_cons_of_mem _ hq))
    | some r =>
      have h1 := hall p (List.mem_cons_self _ _) r (by rw [hp2]; simp)
      have hpe : processEntry dst locale (S, muts) p.1 p.2 = Except.ok (S, muts) := by
        rw [hp2]
        exact processRaw_owned dst locale S muts p.1 r h1.1 h1.2
      simp only [runEntries, hpe]
      exact ih S muts (fun q hq => hall q (List.mem_cons_of_mem _ hq))

theorem runEntries_establishes (dst : AbsPath) (locale : Option String) :
    ∀ (videos : List (VideoInfo × Option AbsPath)) (S : FS) (muts : List Mutation)
      (P : List (VideoInfo × AbsPath)) (out : FS × List Mutation),
      NamesNodup S →
      (∀ p ∈ videos, ∀ r ∈ p.2.toList, r ∈ S.raws ∧ ".." ∉ r) →
      (∀ q ∈ P, Owns dst locale S q.1 q.2) →
      (∀ q ∈ P, ∀ p ∈ videos, ∀ r ∈ p.2.toList,
        q.2 ≠ r ∧ titleFilename q.1 locale q.2 ≠ titleFilename p.1 locale r) →
      (videos.filterMap Prod.snd).Nodup →
      (videos.filterMap (fun p => p.2.map (fun r => titleFilename p.1 locale r))).Nodup →
      runEntries dst locale videos (S, muts) = Except.ok out →
      NamesNodup out.1 ∧ out.1.raws = S.raws ∧ out.1.dstExists = S.dstExists ∧
      (∀ q ∈ P, Owns dst locale out.1 q.1 q.2) ∧
      (∀ p ∈ videos, ∀ r ∈ p.2.toList, Owns dst locale out.1 p.1 r) := by
  intro videos
  induction videos with
  | nil =>
    intro S muts P out hnd _ hP _ _ _ hrun
    simp only [runEntries] at hrun
    injection hrun with h
    subst h
    exact ⟨hnd, rfl, rfl, hP, by simp⟩
  | cons p rest ih =>
    intro S muts P out hnd hraws hP hsep hdr hdn hrun
    cases hp2 : p.2 with
    | none =>
      have hpe : processEntry dst locale (S, muts) p.1 p.2 = Except.ok (S, muts) := by
        rw [hp2]; rfl
      simp only [runEntries, hpe] at hrun
      have hdr' : (rest.filterMap Prod.snd).Nodup := by
        have heq : (p :: rest).filterMap Prod.snd = rest.filterMap Prod.snd := by
          simp [List.filterMap_cons, hp2]
        rw [heq] at hdr
        exact hdr
      have hdn' : (rest.filterMap
          (fun q => q.2.map (fun r => titleFilename q.1 locale r))).Nodup := by
        have heq : (p :: rest).filterMap
            (fun q => q.2.map (fun r => titleFilename q.1 locale r)) =
            rest.filterMap (fun q => q.2.map (fun r => titleFilename q.1 locale r)) := by
          simp [List.filterMap_cons, hp2]
        rw [heq] at hdn
        exact hdn
      obtain ⟨o1, o2, o3, o4, o5⟩ := ih S muts P out hnd
        (fun q hq => hraws q (List.mem_cons_of_mem _ hq)) hP
        (fun q hq p' hp' => hsep q hq p' (List.mem_cons_of_mem _ hp'))
        hdr' hdn' hrun
      refine ⟨o1, o2, o3, o4, ?_⟩
      intro p' hp' r' hr'
      rcases List.mem_cons.1 hp' with rfl | hp''
      · rw [hp2] at hr'
        cases hr'
      · exact o5 p' hp'' r' hr'
    | some r =>
      have hrr := hraws p (List.mem_cons_self _ _) r (by rw [hp2]; simp)
      cases hpr : processRaw dst locale S muts p.1 r with
      | error e =>
        have hpe : processEntry dst locale (S, muts) p.1 p.2 = Except.error e := by
          rw [hp2]; exact hpr
        simp only [runEntries, hpe] at hrun
        cases hrun
      | ok st' =>
        have hpe : processEntry dst locale (S, muts) p.1 p.2 = Except.ok st' := by
          rw [hp2]; exact hpr
        simp only [runEntries, hpe] at hrun
        obtain ⟨s1, s2, s3, s4, s5⟩ :=
          processRaw_spec dst locale S muts p.1 r st' hnd hrr.1 hrr.2 hpr
        have hdrc : r ∉ rest.filterMap Prod.snd ∧
            (rest.filterMap Prod.snd).Nodup := by
          have heq : (p :: rest).filterMap Prod.snd = r :: rest.filterMap Prod.snd := by
            simp [List.filterMap_cons, hp2]
          rw [heq] at hdr
          exact List.nodup_cons.1 hdr
        have hdnc : titleFilename p.1 locale r ∉ rest.filterMap
              (fun q => q.2.map (fun r' => titleFilename q.1 locale r')) ∧
            (rest.filterMap
              (fun q => q.2.map (fun r' => titleFilename q.1 locale r'))).Nodup := by
          have heq : (p :: rest).filterMap
              (fun q => q.2.map (fun r' => titleFilename q.1 locale r')) =
              titleFilename p.1 locale r :: rest.filterMap
                (fun q => q.2.map (fun r' => titleFilename q.1 locale r')) := by
            simp [List.filterMap_cons, hp2]
          rw [heq] at hdn
          exact List.nodup_cons.1 hdn
        have hPown' : ∀ q ∈ P ++ [(p.1, r)], Owns dst locale st'.1 q.1 q.2 := by
          intro q hq
          rcases List.mem_append.1 hq with hq | hq
          · obtain ⟨hqr, hqtf⟩ :=
              hsep q hq p (List.mem_cons_self _ _) r (by rw [hp2]; simp)
            exact s5 q.1 q.2 hqr hqtf (hP q hq)
          · have hqe : q = (p.1, r) := List.mem_singleton.1 hq
            subst hqe
            exact s4
        have hsep' : ∀ q ∈ P ++ [(p.1, r)], ∀ p' ∈ rest, ∀ r' ∈ p'.2.toList,
            q.2 ≠ r' ∧ titleFilename q.1 locale q.2 ≠ titleFilename p'.1 locale r' := by
          intro q hq p' hp' r' hr'
          rcases List.mem_append.1 hq with hq | hq
          · exact hsep q hq p' (List.mem_cons_of_mem _ hp') r' hr'
          · have hqe : q = (p.1, r) := List.mem_singleton.1 hq
            have hp'2 : p'.2 = some r' := by
              cases hx : p'.2 with
              | none => rw [hx] at hr'; cases hr'
              | some a =>
                rw [hx] at hr'
                have ha : r' = a := by simpa using hr'
                rw [ha]
            have hr'mem : r' ∈ rest.filterMap Prod.snd :=
              List.mem_filterMap.2 ⟨p', hp', hp'2⟩
            have htf'mem : titleFilename p'.1 locale r' ∈ rest.filterMap
                (fun q => q.2.map (fun r'' => titleFilename q.1 locale r'')) :=
              List.mem_filterMap.2 ⟨p', hp', by rw [hp'2]; rfl⟩
            have hq2 : q.2 = r := by rw [hqe]
            have hq1 : titleFilename q.1 locale q.2 = titleFilename p.1 locale r := by
              rw [hqe]
            constructor
            · rw [hq2]
              intro he
              exact hdrc.1 (by rw [he]; exact hr'mem)
            · rw [hq1]
              intro he
              exact hdnc.1 (by rw [he]; exact htf'mem)
        have hraws' : ∀ p' ∈ rest, ∀ r' ∈ p'.2.toList,
            r' ∈ st'.1.raws ∧ ".." ∉ r' := by
          intro p' hp' r' hr'
          rw [s2]
          exact hraws p' (List.mem_cons_of_mem _ hp') r' hr'
        obtain ⟨o1, o2, o3, o4, o5⟩ := ih st'.1 st'.2 (P ++ [(p.1, r)]) out s1
          hraws' hPown' hsep' hdrc.2 hdnc.2 hrun
        refine ⟨o1, by rw [o2, s2], by rw [o3, s3], ?_, ?_⟩
        · intro q hq
          exact o4 q (List.mem_append.2 (Or.inl hq))
        · intro p' hp' r' hr'
          rcases List.mem_cons.1 hp' with rfl | hp''
          · rw [hp2] at hr'
            have hre : r' = r := by simpa using hr'
            rw [hre]
            exact o4 (p'.1, r) (List.mem_append.2 (Or.inr (List.mem_singleton.2 rfl)))
          · exact o5 p' hp'' r' hr'

/-- C1 amended: provided the directory listing has distinct names, every
entry's raw path is an existing raw file given as a normalized absolute
path, the raw paths of distinct entries are distinct, and the entries'
pretty names are pairwise distinct, a second run of the symlink
synchronizer on the state the first successful run produced performs zero
filesystem mutations (and leaves the state unchanged). -/
theorem c1_sync_idempotent (fs : FS) (dst : AbsPath)
    (videos : List (VideoInfo × Option AbsPath)) (locale : Option String)
    (S1 : FS) (m1 : List Mutation)
    (hnodup : NamesNodup fs)
    (hraws : ∀ p ∈ videos, ∀ r ∈ p.2.toList, r ∈ fs.raws ∧ ".." ∉ r)
    (hdr : (videos.filterMap Prod.snd).Nodup)
    (hdn : (videos.filterMap
      (fun p => p.2.map (fun r => titleFilename p.1 locale r))).Nodup)
    (hrun1 : createSymlinksLocale fs dst videos locale = Except.ok (S1, m1)) :
    createSymlinksLocale S1 dst videos locale = Except.ok (S1, []) := by
  unfold createSymlinksLocale at hrun1 ⊢
  have second : ∀ (S0 : FS) (m0 : List Mutation),
      NamesNodup S0 → S0.raws = fs.raws → S0.dstExists = true →
      runEntries dst locale videos (S0, m0) = Except.ok (S1, m1) →
      (if S1.dstExists = true then
        runEntries dst locale videos ((auditPass S1 dst).1, [])
      else
        runEntries dst locale videos
          ((auditPass { dstExists := true, entries := [], raws := S1.raws } dst).1,
           [Mutation.mkdirDst])) = Except.ok (S1, []) := by
    intro S0 m0 hnd0 hraws0 hde0 hrun0
    obtain ⟨o1, o2, o3, _, o5⟩ := runEntries_establishes dst locale videos S0 m0
      [] (S1, m1) hnd0 (by rw [hraws0]; exact hraws) (by simp) (by simp)
      hdr hdn hrun0
    have hde1 : S1.dstExists = true := by
      have h3 : (S1, m1).1.dstExists = S0.dstExists := o3
      rw [show S1.dstExists = S0.dstExists from h3]
      exact hde0
    rw [if_pos hde1, auditPass_fst]
    apply runEntries_noop
    intro p hp r hr
    refine ⟨?_, o5 p hp r hr⟩
    have h2 : (S1, m1).1.raws = S0.raws := o2
    rw [show S1.raws = S0.raws from h2, hraws0]
    exact contains_iff_mem.2 (hraws p hp r hr).1
  by_cases hde : fs.dstExists = true
  · rw [if_pos hde, auditPass_fst] at hrun1
    exact second fs [] hnodup rfl hde hrun1
  · rw [if_neg hde, auditPass_fst] at hrun1
    exact second ⟨true, [], fs.raws⟩ [Mutation.mkdirDst] (by simp [NamesNodup])
      rfl rfl hrun1

/-- C1 witness: one entry whose raw file exists; the first run creates
the link, the second performs no mutation. -/
theorem c1_sync_idempotent_witness :
    (NamesNodup (⟨true, [], [["r", "abcdefgh.mp4"]]⟩ : FS) ∧
      (∀ p ∈ ([(⟨"abcdefgh", 10, "T", [], false⟩,
          some ["r", "abcdefgh.mp4"])] : List (VideoInfo × Option AbsPath)),
        ∀ r ∈ p.2.toList,
          r ∈ (⟨true, [], [["r", "abcdefgh.mp4"]]⟩ : FS).raws ∧ ".." ∉ r) ∧
      (([(⟨"abcdefgh", 10, "T", [], false⟩,
          some ["r", "abcdefgh.mp4"])] : List (VideoInfo × Option AbsPath)).filterMap
        Prod.snd).Nodup ∧
      (([(⟨"abcdefgh", 10, "T", [], false⟩,
          some ["r", "abcdefgh.mp4"])] : List (VideoInfo × Option AbsPath)).filterMap
        (fun p => p.2.map (fun r => titleFilename p.1 none r))).Nodup ∧
      createSymlinksLocale (⟨true, [], [["r", "abcdefgh.mp4"]]⟩ : FS) ["d"]
        [(⟨"abcdefgh", 10, "T", [], false⟩, some ["r", "abcdefgh.mp4"])] none =
        Except.ok
          (⟨true, [("T.mp4", DirEntry.link ⟨false, ["..", "r", "abcdefgh.mp4"]⟩)],
            [["r", "abcdefgh.mp4"]]⟩,
           [Mutation.symlink ⟨false, ["..", "r", "abcdefgh.mp4"]⟩ "T.mp4"])) ∧
    createSymlinksLocale
        (⟨true, [("T.mp4", DirEntry.link ⟨false, ["..", "r", "abcdefgh.mp4"]⟩)],
          [["r", "abcdefgh.mp4"]]⟩ : FS) ["d"]
        [(⟨"abcdefgh", 10, "T", [], false⟩, some ["r", "abcdefgh.mp4"])] none =
      Except.ok
        (⟨true, [("T.mp4", DirEntry.link ⟨false, ["..", "r", "abcdefgh.mp4"]⟩)],
          [["r", "abcdefgh.mp4"]]⟩, []) :=
  ⟨⟨by decide, by decide, by decide, by decide, rfl⟩,
   c1_sync_idempotent (⟨true, [], [["r", "abcdefgh.mp4"]]⟩ : FS) ["d"]
     [(⟨"abcdefgh", 10, "T", [], false⟩, some ["r", "abcdefgh.mp4"])] none
     (⟨true, [("T.mp4", DirEntry.link ⟨false, ["..", "r", "abcdefgh.mp4"]⟩)],
       [["r", "abcdefgh.mp4"]]⟩ : FS)
     [Mutation.symlink ⟨false, ["..", "r", "abcdefgh.mp4"]⟩ "T.mp4"]
     (by decide) (by decide) (by decide) (by decide) rfl⟩
